import Mathlib

/-!
# VinLisp: the evaluator of `main.c`

A shallow embedding of `eval_op` and `eval` from `src/main.c`, over the tree type of the
mpc parser library, followed by the properties proved about them.

Conventions of the embedding.

* C strings are `List Char`; `strcmp(a, b) == 0` is list equality and `strstr(a, b) != NULL`
  is the function `strstr` below.
* A `long` is an `Int`; the width of `long` is a field of `Host` (64 on LP64 hosts, 32 where
  the `_WIN32` branch of the source applies).  `+`, `-`, `*` reduce their exact result to that
  width; `/` and `%` are the native operations, which have no result when the divisor is zero
  or the quotient is not representable.
* An evaluation either returns an `lval` or stops at a faulting operation (`Outcome.fault`):
  a read past the end of a `children` array, or a native division with no result.
* The parser library mpc is not part of `main.c`: the trees it builds and the call
  `mpc_parse` are modelled from the grammar that `main` passes to it.  `strtol`, `printf` and
  `pow` are those of the C library.
-/

namespace VinLisp

/-! ## Values -/

/-- The anonymous enum `{ LERR_DIV_ZERO, LERR_BAD_OP, LERR_BAD_NUM }`. -/
inductive LErr where
  | LERR_DIV_ZERO
  | LERR_BAD_OP
  | LERR_BAD_NUM
  deriving DecidableEq

/-- The struct `lval`: `type` selects which of `num` and `err` has been written, and only
that field is ever read, so the struct is the tagged union of the two. -/
inductive lval where
  | num (x : Int)
  | err (e : LErr)
  deriving DecidableEq

/-- The constructor function `lval_num`. -/
abbrev lval_num (x : Int) : lval := lval.num x

/-- The constructor function `lval_err`. -/
abbrev lval_err (x : LErr) : lval := lval.err x

/-- The ways an evaluation can stop without returning a value. -/
inductive Fault where
  | out_of_bounds
  | arith
  deriving DecidableEq

/-- What a call of `eval_op` or `eval` does: return a value, or stop at a fault. -/
inductive Outcome where
  | ok (v : lval)
  | fault (f : Fault)
  deriving DecidableEq

/-! ## The host: `long` and `pow` -/

/-- What the source takes from the C implementation: the number of bits of `long`, and the
value of `(long) pow((double) a, (double) b)` for two `long`s (the floating-point power of
`math.h` followed by the narrowing conversion), which the embedding does not compute. -/
structure Host where
  long_bits : Nat
  pow_long : Int → Int → Int

/-- The constant `LONG_MAX` of the host. -/
def LONG_MAX (h : Host) : Int := 2 ^ (h.long_bits - 1) - 1

/-- The constant `LONG_MIN` of the host. -/
def LONG_MIN (h : Host) : Int := -(2 ^ (h.long_bits - 1))

/-- A mathematical integer is representable as a `long`. -/
def in_range (h : Host) (z : Int) : Prop := LONG_MIN h ≤ z ∧ z ≤ LONG_MAX h

instance (h : Host) (z : Int) : Decidable (in_range h z) := by
  unfold in_range; exact inferInstance

/-- Reduction of an exact result to the width of `long` (two's complement). -/
def wrap_long (h : Host) (z : Int) : Int :=
  (z + 2 ^ (h.long_bits - 1)) % 2 ^ h.long_bits - 2 ^ (h.long_bits - 1)

/-- The native `a / b` on `long`: truncating, and without a result when `b` is zero or the
quotient is not representable. -/
def long_div (h : Host) (a b : Int) : Option Int :=
  if b = 0 then none
  else if in_range h (Int.tdiv a b) then some (Int.tdiv a b)
  else none

/-- The native `a % b` on `long`: the remainder of the truncating division, and without a
result exactly where `a / b` has none. -/
def long_rem (h : Host) (a b : Int) : Option Int :=
  if b = 0 then none
  else if in_range h (Int.tdiv a b) then some (Int.tmod a b)
  else none

/-! ## C strings and `strtol` -/

/-- The test `strstr(hay, needle) != NULL`: `needle` occurs in `hay`. -/
def strstr : List Char → List Char → Bool
  | [], needle => needle.isEmpty
  | c :: cs, needle => needle.isPrefixOf (c :: cs) || strstr cs needle

/-- The `isspace` of the C locale. -/
def isspace (c : Char) : Bool :=
  c = ' ' || c = '\t' || c = '\n' || c = '\x0b' || c = '\x0c' || c = '\r'

/-- The `isdigit` of C. -/
def isdigit (c : Char) : Bool := 48 ≤ c.toNat && c.toNat ≤ 57

/-- The value of a digit character. -/
def digit_value (c : Char) : Nat := c.toNat - 48

/-- The magnitude accumulated by `strtol` over a run of digits, most significant first. -/
def strtol_digits (ds : List Char) : Nat :=
  ds.foldl (fun acc c => 10 * acc + digit_value c) 0

/-- The call `strtol(s, NULL, 10)` after `errno = 0`, as the C standard defines it: leading
white space is skipped, one sign is accepted, the longest run of digits is converted, and a
value outside `long` is replaced by `LONG_MAX` or `LONG_MIN` with `errno` set to `ERANGE`.
The result is the returned `long` and whether `errno == ERANGE` afterwards. -/
def strtol (h : Host) (s : List Char) : Int × Bool :=
  let s1 := s.dropWhile isspace
  let s2 := if s1.head? = some '-' ∨ s1.head? = some '+' then s1.tail else s1
  let mag : Int := (strtol_digits (s2.takeWhile isdigit) : Nat)
  let v : Int := if s1.head? = some '-' then -mag else mag
  if LONG_MAX h < v then (LONG_MAX h, true)
  else if v < LONG_MIN h then (LONG_MIN h, true)
  else (v, false)

/-- The number a run of decimal digits denotes, by positional weight. -/
def decimal_value (ds : List Char) : Nat :=
  Nat.ofDigits 10 (ds.reverse.map digit_value)

/-- The text is matched in full by the `number` rule, the regex `-?[0-9]+`. -/
def is_numeral : List Char → Bool
  | [] => false
  | c :: r => if c = '-' then !r.isEmpty && r.all isdigit else (c :: r).all isdigit

/-- The integer a text of the `number` rule denotes. -/
def text_value : List Char → Int
  | [] => 0
  | c :: r => if c = '-' then -(decimal_value r : Int) else (decimal_value (c :: r) : Int)

/-! ## The tree of the parser -/

/-- The struct `mpc_ast_t` of mpc, with the fields `eval` reads: `tag`, `contents` and the
`children` array (whose length is `children_num`). -/
inductive mpc_ast_t where
  | mk (tag : List Char) (contents : List Char) (children : List mpc_ast_t)

/-- The field `tag`. -/
def mpc_ast_t.tag : mpc_ast_t → List Char
  | .mk tag _ _ => tag

/-- The field `contents`. -/
def mpc_ast_t.contents : mpc_ast_t → List Char
  | .mk _ contents _ => contents

/-! ## The evaluator -/

/-- The function `eval_op` of `main.c`. -/
def eval_op (h : Host) (x : lval) (op : List Char) (y : lval) : Outcome :=
  match x, y with
  | .err e, _ => .ok (.err e)
  | .num _, .err e => .ok (.err e)
  | .num a, .num b =>
    if op = "+".data then .ok (lval_num (wrap_long h (a + b)))
    else if op = "-".data then .ok (lval_num (wrap_long h (a - b)))
    else if op = "*".data then .ok (lval_num (wrap_long h (a * b)))
    else if op = "/".data then
      if b = 0 then .ok (lval_err .LERR_DIV_ZERO)
      else
        match long_div h a b with
        | some q => .ok (lval_num q)
        | none => .fault .arith
    else if op = "%".data then
      match long_rem h a b with
      | some r => .ok (lval_num r)
      | none => .fault .arith
    else if op = "^".data then .ok (lval_num (wrap_long h (h.pow_long a b)))
    else if op = "min".data then .ok (lval_num (if a < b then a else b))
    else if op = "max".data then .ok (lval_num (if a > b then a else b))
    else .ok (lval_err .LERR_BAD_OP)

mutual
/-- The function `eval` of `main.c`.  The `while` loop is `eval_loop`, started at
`children[3]`; a `children` array too short for `children[1]` and `children[2]` is a read
out of bounds. -/
def eval (h : Host) : mpc_ast_t → Outcome
  | .mk tag contents children =>
    if strstr tag "number".data then
      if (strtol h contents).2 then .ok (lval_err .LERR_BAD_NUM)
      else .ok (lval_num (strtol h contents).1)
    else
      match children with
      | _ :: c1 :: c2 :: rest =>
        match eval h c2 with
        | .fault f => .fault f
        | .ok x => eval_loop h c1.contents x rest
      | _ => .fault .out_of_bounds
/-- The `while` loop of `eval`, on the children from index `i` on, with accumulator `x`.
Reaching the end of the array reads `children[children_num]`, out of bounds. -/
def eval_loop (h : Host) (op : List Char) (x : lval) : List mpc_ast_t → Outcome
  | [] => .fault .out_of_bounds
  | c :: rest =>
    if strstr c.tag "expr".data then
      match eval h c with
      | .fault f => .fault f
      | .ok y =>
        match eval_op h x op y with
        | .fault f => .fault f
        | .ok x1 => eval_loop h op x1 rest
    else .ok x
end

/-! ## Notions the properties are stated with -/

/-- The call `eval_op(x, op, y)` on the outcomes of two evaluations made in that order: a
fault of the left one, then of the right one, stops the computation before the call. -/
def eval_op_outcomes (h : Host) (op : List Char) (x y : Outcome) : Outcome :=
  match x with
  | .fault f => .fault f
  | .ok a =>
    match y with
    | .fault f => .fault f
    | .ok b => eval_op h a op b

/-- Modelled from the spec: the leaf the mpc parser (not under `src/`) builds for a match of
the `number` rule inside `expr`, the `Number(text)` node of the data model; its tag joins
the names of the two rules of `main.c`. -/
def number_node (text : List Char) : mpc_ast_t :=
  .mk "expr|number|regex".data text []

/-- Modelled from the spec: the leaf the mpc parser (not under `src/`) builds for a match of
the `operator` rule, the `Operator(text)` node of the data model. -/
def operator_node (op : List Char) : mpc_ast_t :=
  .mk (if op = "min".data ∨ op = "max".data then "operator|regex".data
    else "operator|char".data) op []

/-- Modelled from the spec: the leaf the mpc parser (not under `src/`) builds for a literal
character of a rule, here the two parentheses. -/
def char_node (text : List Char) : mpc_ast_t :=
  .mk "char".data text []

/-- Modelled from the spec: the leaf the mpc parser (not under `src/`) builds for the two
anchors of the `vinlisp` rule, which match the empty text. -/
def regex_node : mpc_ast_t :=
  .mk "regex".data [] []

/-- Modelled from the spec: the node the mpc parser (not under `src/`) builds for a
parenthesized `expr`, the `Expression(children)` node of the data model: the opening
parenthesis, the operator, the operands in order, the closing parenthesis. -/
def expr_node (op : List Char) (es : List mpc_ast_t) : mpc_ast_t :=
  .mk "expr|>".data [] (char_node "(".data :: operator_node op :: (es ++ [char_node ")".data]))

/-- Modelled from the spec: the root the mpc parser (not under `src/`) builds for a match of
the `vinlisp` rule, the `Program(children)` node of the data model: the start anchor, the
operator, the operands in order, the end anchor. -/
def program_node (op : List Char) (es : List mpc_ast_t) : mpc_ast_t :=
  .mk ">".data [] (regex_node :: operator_node op :: (es ++ [regex_node]))

/-- An LP64 host, for the concrete evaluations; no evaluation below uses its `pow_long`. -/
def host64 : Host := ⟨64, fun _ _ => 0⟩

/-- The tree of the line `- 1 2 3`. -/
def prog_sub_1_2_3 : mpc_ast_t :=
  program_node "-".data [number_node "1".data, number_node "2".data, number_node "3".data]

/-- The tree of the line `/ 5 0`. -/
def prog_div_5_0 : mpc_ast_t :=
  program_node "/".data [number_node "5".data, number_node "0".data]

/-- The tree of the line `/ -7 2`. -/
def prog_div_neg7_2 : mpc_ast_t :=
  program_node "/".data [number_node "-7".data, number_node "2".data]

/-- The tree of the line `% -7 2`. -/
def prog_rem_neg7_2 : mpc_ast_t :=
  program_node "%".data [number_node "-7".data, number_node "2".data]

/-- The operations an evaluation performs that can create an error or fault: the conversion
of the text of a number leaf by `strtol`, and a call `eval_op(x, op, y)`. -/
inductive Event where
  | number (text : List Char)
  | apply (x : lval) (op : List Char) (y : lval)
  deriving DecidableEq

mutual
/-- The events of the evaluation of a tree, in the order `eval` performs them, up to the
return or the fault.  It follows `eval` step by step. -/
def trace (h : Host) : mpc_ast_t → List Event
  | .mk tag contents children =>
    if strstr tag "number".data then [Event.number contents]
    else
      match children with
      | _ :: c1 :: c2 :: rest =>
        trace h c2 ++
          (match eval h c2 with
           | .fault _ => []
           | .ok x => trace_loop h c1.contents x rest)
      | _ => []
/-- The events of the `while` loop of `eval`, following `eval_loop`. -/
def trace_loop (h : Host) (op : List Char) (x : lval) : List mpc_ast_t → List Event
  | [] => []
  | c :: rest =>
    if strstr c.tag "expr".data then
      trace h c ++
        (match eval h c with
         | .fault _ => []
         | .ok y =>
           Event.apply x op y ::
             (match eval_op h x op y with
              | .fault _ => []
              | .ok x1 => trace_loop h op x1 rest))
    else []
end

/-- The error an event creates, if any: a conversion that reports `ERANGE`, or a call of
`eval_op` on two numbers that returns an error.  A call with an error operand only passes
that error on. -/
def Event.raised (h : Host) : Event → Option LErr
  | .number text => if (strtol h text).2 then some .LERR_BAD_NUM else none
  | .apply (.num a) op (.num b) =>
    match eval_op h (.num a) op (.num b) with
    | .ok (.err e) => some e
    | _ => none
  | .apply _ _ _ => none

/-- The error of the first failing sub-evaluation, in evaluation order. -/
def first_raised (h : Host) (t : mpc_ast_t) : Option LErr :=
  (trace h t).findSome? (Event.raised h)

/-- The error a value carries, if it is one. -/
def lval.error : lval → Option LErr
  | .num _ => none
  | .err e => some e

/-- A converted literal denotes a representable number. -/
def Event.literal_in_range (h : Host) : Event → Prop
  | .number text => in_range h (text_value text)
  | .apply _ _ _ => True

instance (h : Host) (ev : Event) : Decidable (ev.literal_in_range h) := by
  cases ev <;> unfold Event.literal_in_range <;> exact inferInstance

/-- A call of `eval_op` with `/` or `%` does not have the number zero as right operand. -/
def Event.divisor_not_zero : Event → Prop
  | .number _ => True
  | .apply _ op y => (op = "/".data ∨ op = "%".data) → y ≠ lval_num 0

instance (ev : Event) : Decidable ev.divisor_not_zero := by
  cases ev <;> unfold Event.divisor_not_zero <;> exact inferInstance

/-- A call of `eval_op` with `/` or `%` on two numbers has a representable quotient. -/
def Event.quotient_in_range (h : Host) : Event → Prop
  | .apply (.num a) op (.num b) =>
    (op = "/".data ∨ op = "%".data) → in_range h (Int.tdiv a b)
  | _ => True

instance (h : Host) (ev : Event) : Decidable (ev.quotient_in_range h) := by
  unfold Event.quotient_in_range; split <;> exact inferInstance

/-- The children `eval` evaluates when no evaluation faults: `children[2]` and the run of
children tagged `expr` from `children[3]` on. -/
def operands : mpc_ast_t → List mpc_ast_t
  | .mk tag _ children =>
    if strstr tag "number".data then []
    else
      match children with
      | _ :: _ :: c2 :: rest => c2 :: rest.takeWhile (fun c => strstr c.tag "expr".data)
      | _ => []

/-- The sub-expressions of a tree: the tree, its operands, their operands, and so on. -/
inductive sub_expression : mpc_ast_t → mpc_ast_t → Prop
  | refl (t : mpc_ast_t) : sub_expression t t
  | step (t c s : mpc_ast_t) : c ∈ operands t → sub_expression c s → sub_expression t s

/-- The relation `replaced sub new t t1`: the tree `t1` is `t` with one occurrence of `sub`,
at the root or at a child of index at least 2 of a node at any depth, replaced by `new`. -/
inductive replaced (sub new : mpc_ast_t) : mpc_ast_t → mpc_ast_t → Prop
  | here : replaced sub new sub new
  | child (tag contents : List Char) (pre post : List mpc_ast_t) (c c1 : mpc_ast_t) :
      2 ≤ pre.length → replaced sub new c c1 →
      replaced sub new (.mk tag contents (pre ++ c :: post))
        (.mk tag contents (pre ++ c1 :: post))

/-- The tokens of the `operator` rule of the grammar in `main`. -/
def operator_tokens : List (List Char) :=
  ["+".data, "-".data, "*".data, "/".data, "^".data, "%".data, "min".data, "max".data]

/-- Modelled from the spec: the trees the mpc parser (not under `src/`) builds for a match
of the rule `expr : <number> | '(' <operator> <expr>+ ')'`. -/
inductive parsed_expr : mpc_ast_t → Prop
  | number (text : List Char) : is_numeral text = true → parsed_expr (number_node text)
  | paren (op : List Char) (e : mpc_ast_t) (es : List mpc_ast_t) :
      op ∈ operator_tokens → parsed_expr e → (∀ x ∈ es, parsed_expr x) →
      parsed_expr (expr_node op (e :: es))

/-- Modelled from the spec: the trees the mpc parser (not under `src/`) builds for a
successful parse of a line by the rule `vinlisp : /^/ <operator> <expr>+ /$/`. -/
inductive parsed_program : mpc_ast_t → Prop
  | mk (op : List Char) (e : mpc_ast_t) (es : List mpc_ast_t) :
      op ∈ operator_tokens → parsed_expr e → (∀ x ∈ es, parsed_expr x) →
      parsed_program (program_node op (e :: es))

/-- The tree of the parenthesized expression `(/ 1 0)`. -/
def expr_div_1_0 : mpc_ast_t :=
  expr_node "/".data [number_node "1".data, number_node "0".data]

/-- The tree of the parenthesized expression `(% 1 0)`. -/
def expr_rem_1_0 : mpc_ast_t :=
  expr_node "%".data [number_node "1".data, number_node "0".data]

/-- The tree of the line `+ (/ 1 0) (% 1 0)`. -/
def prog_add_div0_rem0 : mpc_ast_t :=
  program_node "+".data [expr_div_1_0, expr_rem_1_0]

/-- The tree of the line `+ (/ 1 0) 99999999999999999999`. -/
def prog_add_div0_big : mpc_ast_t :=
  program_node "+".data [expr_div_1_0, number_node "99999999999999999999".data]

/-- The tree of the line `+ 99999999999999999999 (% 1 0)`. -/
def prog_add_big_rem0 : mpc_ast_t :=
  program_node "+".data [number_node "99999999999999999999".data, expr_rem_1_0]

/-- The tree of the line `+ 99999999999999999999 1 2`. -/
def prog_add_big_1_2 : mpc_ast_t :=
  program_node "+".data
    [number_node "99999999999999999999".data, number_node "1".data, number_node "2".data]

/-- The three conditions on an event together. -/
def Event.safe (h : Host) (ev : Event) : Prop :=
  ev.literal_in_range h ∧ ev.divisor_not_zero ∧ ev.quotient_in_range h

/-- The tree of the line `/ -9223372036854775808 -1`. -/
def prog_div_min_neg1 : mpc_ast_t :=
  program_node "/".data [number_node "-9223372036854775808".data, number_node "-1".data]

/-- The tree of the line `+ 1 (* 2 3)`. -/
def prog_add_1_mul_2_3 : mpc_ast_t :=
  program_node "+".data
    [number_node "1".data, expr_node "*".data [number_node "2".data, number_node "3".data]]

/-- The tree of the line `+ 1 6`. -/
def prog_add_1_6 : mpc_ast_t :=
  program_node "+".data [number_node "1".data, number_node "6".data]

/-! ## The parser, the printer and the loop of `main` -/

/-- Modelled from the spec: the white space the mpc parser (not under `src/`) skips after
the start of the line and after every token, as between the tokens of `+ 1 2`. -/
def skip_space (s : List Char) : List Char :=
  s.dropWhile isspace

/-- Modelled from the spec: the `number` rule at the head of the input, "one optional minus
sign followed by one-or-more digits, consumed greedily"; the parser itself (mpc) is not under
`src/`.  The result is the text matched and the input after it. -/
def parse_number (s : List Char) : Option (List Char × List Char) :=
  match s with
  | [] => none
  | c :: r =>
    if c = '-' then
      if (r.takeWhile isdigit).isEmpty then none
      else some ('-' :: r.takeWhile isdigit, skip_space (r.dropWhile isdigit))
    else
      if ((c :: r).takeWhile isdigit).isEmpty then none
      else some ((c :: r).takeWhile isdigit, skip_space ((c :: r).dropWhile isdigit))

/-- Modelled from the spec: the `operator` rule at the head of the input, "one of
`+ - * / % ^ min max`", tried in the order of the grammar in `main`; the parser itself (mpc)
is not under `src/`. -/
def parse_operator (s : List Char) : Option (List Char × List Char) :=
  operator_tokens.findSome? (fun tok =>
    if tok.isPrefixOf s then some (tok, skip_space (s.drop tok.length)) else none)

mutual
/-- Modelled from the spec: the `expr` rule at the head of the input, "either a `number`, or
a parenthesized form `( operator expr+ )`"; the parser itself (mpc) is not under `src/`.  The
first argument bounds the depth of the recursion. -/
def parse_expr : Nat → List Char → Option (mpc_ast_t × List Char)
  | 0, _ => none
  | n + 1, s =>
    match parse_number s with
    | some (text, rest) => some (number_node text, rest)
    | none =>
      match s with
      | [] => none
      | c :: r =>
        if c = '(' then
          match parse_operator (skip_space r) with
          | none => none
          | some (op, r1) =>
            match parse_exprs n r1 with
            | ([], _) => none
            | (e :: es, r2) =>
              match r2 with
              | [] => none
              | c2 :: r3 =>
                if c2 = ')' then some (expr_node op (e :: es), skip_space r3) else none
        else none
/-- Modelled from the spec: the repetition of `expr`, as many as the input has; the parser
itself (mpc) is not under `src/`. -/
def parse_exprs : Nat → List Char → List mpc_ast_t × List Char
  | 0, s => ([], s)
  | n + 1, s =>
    match parse_expr n s with
    | none => ([], s)
    | some (e, rest) => (e :: (parse_exprs n rest).1, (parse_exprs n rest).2)
end

/-- Modelled from the spec: the form `operator expr+` after the start of the line, with the
input it leaves; the parser itself (mpc) is not under `src/`. -/
def parse_form (fuel : Nat) (s : List Char) : Option (mpc_ast_t × List Char) :=
  match parse_operator (skip_space s) with
  | none => none
  | some (op, r1) =>
    match parse_exprs fuel r1 with
    | ([], _) => none
    | (e :: es, r2) => some (program_node op (e :: es), r2)

/-- Modelled from the spec: the `program` rule, "an operator followed by one or more `expr`,
anchored to the whole input line": the form must leave no input. -/
def parse_program (fuel : Nat) (s : List Char) : Option mpc_ast_t :=
  match parse_form fuel s with
  | some (t, []) => some t
  | _ => none

/-- Modelled from the spec: the call `mpc_parse("<stdin>", input, VinLisp, &r)` of `main`,
whose code (mpc) is not under `src/`: the tree on success, nothing on a parse failure.  The
depth allowed is more than a line of that length can need. -/
def mpc_parse (input : List Char) : Option mpc_ast_t :=
  parse_program (2 * input.length + 2) input

/-- The character of a decimal digit. -/
def digit_char (d : Nat) : Char := Char.ofNat (48 + d)

/-- The decimal digits of `n` put in front of `acc`, least significant digit first out; the
first argument bounds the number of digits. -/
def render_digits : Nat → Nat → List Char → List Char
  | 0, _, acc => acc
  | f + 1, n, acc =>
    if n < 10 then digit_char n :: acc
    else render_digits f (n / 10) (digit_char (n % 10) :: acc)

/-- The decimal digits of a natural number, most significant first, `0` for zero. -/
def render_nat (n : Nat) : List Char :=
  render_digits (n + 1) n []

/-- The text `printf("%li", n)` writes, as the C standard defines it: a minus sign for a
negative number, then the decimal digits of the magnitude. -/
def printf_li (n : Int) : List Char :=
  if n < 0 then '-' :: render_nat n.natAbs else render_nat n.natAbs

/-- The function `lval_print` of `main.c`: the text it writes to the standard output. -/
def lval_print (v : lval) : List Char :=
  match v with
  | .num n => printf_li n
  | .err e =>
    (if e = .LERR_DIV_ZERO then "Error: Division by zero!".data else [])
      ++ (if e = .LERR_BAD_OP then "Error: Invalid operator!".data else [])
      ++ (if e = .LERR_BAD_NUM then "Error: Invalid number!".data else [])

/-- The function `lval_println` of `main.c`. -/
def lval_println (v : lval) : List Char :=
  lval_print v ++ ['\n']

/-- What one turn of the loop of `main` does with the line read: print the value of the
line, print the diagnostic of the parser without calling `eval`, or stop at a fault of the
evaluation. -/
inductive Turn where
  | printed (text : List Char)
  | parse_failure
  | stopped (f : Fault)
  deriving DecidableEq

/-- The body of the loop of `main` from the call of `mpc_parse` on: `eval` and
`lval_println` on the tree of a successful parse, the error branch otherwise. -/
def main_turn (h : Host) (input : List Char) : Turn :=
  match mpc_parse input with
  | some t =>
    match eval h t with
    | .ok v => .printed (lval_println v)
    | .fault f => .stopped f
  | none => .parse_failure

/-- The tree of the line `- 5`. -/
def prog_sub_5 : mpc_ast_t :=
  program_node "-".data [number_node "5".data]

/-- The tree of the line `/ 0`. -/
def prog_div_0 : mpc_ast_t :=
  program_node "/".data [number_node "0".data]

/-- A tree of the shape of a program whose operator text `foo` is none of the grammar's,
with the single operand `5`. -/
def prog_foo_5 : mpc_ast_t :=
  program_node "foo".data [number_node "5".data]

/-- The number of opening parentheses of a text minus the number of closing ones. -/
def paren_excess (s : List Char) : Int :=
  (s.count '(' : Int) - (s.count ')' : Int)

/-- The tree of the line `min 3 1 2`. -/
def prog_min_3_1_2 : mpc_ast_t :=
  program_node "min".data [number_node "3".data, number_node "1".data, number_node "2".data]

/-- The tree of the line `min 2 3 1`. -/
def prog_min_2_3_1 : mpc_ast_t :=
  program_node "min".data [number_node "2".data, number_node "3".data, number_node "1".data]

/-! ## The power of the host -/

/-- The number `n` with its factors of two removed, at most as many as the first argument
allows. -/
def strip_twos : Nat → Nat → Nat
  | 0, n => n
  | f + 1, n => if n % 2 = 0 then strip_twos f (n / 2) else n

/-- An integer is exactly representable as a `double` (IEEE 754 binary64): its magnitude is
a significand below `2 ^ 53` times a power of two of exponent at most 971. -/
def double_exact (m : Int) : Prop :=
  strip_twos 971 m.natAbs < 2 ^ 53

instance (m : Int) : Decidable (double_exact m) := by
  unfold double_exact; exact inferInstance

/-- The `pow` of the host returns the exact power where the exponent is not negative and the
power is exactly representable as a `double` and as a `long`. -/
def Host.pow_exact (h : Host) : Prop :=
  ∀ a b : Int, 0 ≤ b → double_exact (a ^ b.toNat) → in_range h (a ^ b.toNat) →
    h.pow_long a b = a ^ b.toNat

/-- The `pow` of the host, narrowed by truncation toward zero, is zero where the exponent is
negative and the base is above one in absolute value. -/
def Host.pow_truncates (h : Host) : Prop :=
  ∀ a b : Int, b < 0 → 1 < |a| → h.pow_long a b = 0

/-- The real power of two integers truncated toward zero; for a zero base and a negative
exponent, where the real power is infinite, the value is taken to be zero. -/
def real_pow_trunc (x y : Int) : Int :=
  if 0 ≤ y then x ^ y.toNat
  else if x = 1 then 1
  else if x = -1 then (if y % 2 = 0 then 1 else -1)
  else 0

/-- An LP64 host whose `pow`, narrowed to `long`, is the truncated real power. -/
def host64_exact : Host := ⟨64, real_pow_trunc⟩

/-- The tree of the line `^ 2 10`. -/
def prog_pow_2_10 : mpc_ast_t :=
  program_node "^".data [number_node "2".data, number_node "10".data]


/-! ## Arithmetic of `long` -/

theorem two_pow_long_bits (h : Host) (hb : 0 < h.long_bits) :
    (2 : Int) ^ h.long_bits = 2 * 2 ^ (h.long_bits - 1) := by
  obtain ⟨k, hk⟩ : ∃ k, h.long_bits = k + 1 := ⟨h.long_bits - 1, by omega⟩
  rw [hk, pow_succ]
  simp
  ring

theorem half_pos (h : Host) : (0 : Int) < 2 ^ (h.long_bits - 1) := by positivity

theorem in_range_wrap_long (h : Host) (hb : 0 < h.long_bits) (z : Int) :
    in_range h (wrap_long h z) := by
  have hP := half_pos h
  have hM := two_pow_long_bits h hb
  have h0 := Int.emod_nonneg (z + 2 ^ (h.long_bits - 1)) (b := 2 ^ h.long_bits) (by positivity)
  have h1 := Int.emod_lt_of_pos (z + 2 ^ (h.long_bits - 1)) (b := 2 ^ h.long_bits) (by positivity)
  unfold in_range wrap_long LONG_MIN LONG_MAX
  constructor <;> omega

theorem wrap_long_eq_self (h : Host) (hb : 0 < h.long_bits) (z : Int) (hz : in_range h z) :
    wrap_long h z = z := by
  have hP := half_pos h
  have hM := two_pow_long_bits h hb
  unfold in_range LONG_MIN LONG_MAX at hz
  unfold wrap_long
  rw [Int.emod_eq_of_lt (by omega) (by omega)]
  omega

theorem wrap_long_congr (h : Host) (z : Int) :
    (2 : Int) ^ h.long_bits ∣ wrap_long h z - z := by
  unfold wrap_long
  have := Int.emod_def (z + 2 ^ (h.long_bits - 1)) (2 ^ h.long_bits)
  refine ⟨-((z + 2 ^ (h.long_bits - 1)) / 2 ^ h.long_bits), ?_⟩
  rw [this]
  ring

theorem two_pow_31_le (h : Host) (hb : 32 ≤ h.long_bits) :
    (2147483648 : Int) ≤ 2 ^ (h.long_bits - 1) := by
  have : (2 : Int) ^ 31 ≤ 2 ^ (h.long_bits - 1) :=
    pow_le_pow_right₀ (by norm_num) (by omega)
  norm_num at this
  exact this

theorem in_range_of_small (h : Host) (hb : 32 ≤ h.long_bits) (z : Int)
    (h1 : -2147483648 ≤ z) (h2 : z < 2147483648) : in_range h z := by
  have := two_pow_31_le h hb
  unfold in_range LONG_MIN LONG_MAX
  constructor <;> omega

theorem tdiv_trunc (x y : Int) :
    Int.tdiv x y = Int.sign x * Int.sign y * ((x.natAbs / y.natAbs : Nat) : Int) := by
  obtain ⟨m, rfl | rfl⟩ := Int.eq_nat_or_neg x <;> obtain ⟨n, rfl | rfl⟩ := Int.eq_nat_or_neg y
  all_goals
    rcases Nat.eq_zero_or_pos m with rfl | hm <;> rcases Nat.eq_zero_or_pos n with rfl | hn
  all_goals simp
  all_goals
    rw [Int.sign_eq_one_of_pos (by omega), Int.sign_eq_one_of_pos (by omega),
      Int.tdiv_eq_ediv (by omega) (by omega)]
    simp

theorem neg_tmod_eq (a b : Int) : (-a).tmod b = -(a.tmod b) := by
  rw [Int.tmod_def, Int.tmod_def, Int.neg_tdiv]; ring

theorem tmod_sign_bound (x y : Int) (hy : y ≠ 0) :
    (0 ≤ x → 0 ≤ Int.tmod x y) ∧ (x ≤ 0 → Int.tmod x y ≤ 0) ∧ |Int.tmod x y| < |y| := by
  have key : ∀ a b : Int, 0 ≤ a → b ≠ 0 → 0 ≤ a.tmod b ∧ a.tmod b < |b| := by
    intro a b ha hb
    refine ⟨Int.tmod_nonneg b ha, ?_⟩
    rcases lt_or_gt_of_ne hb with hneg | hpos
    · have := Int.tmod_lt_of_pos a (b := -b) (by omega)
      rw [Int.tmod_neg] at this
      rw [abs_of_neg hneg]; exact this
    · have := Int.tmod_lt_of_pos a hpos
      rw [abs_of_pos hpos]; exact this
  refine ⟨fun hx => (key x y hx hy).1, fun hx => ?_, ?_⟩
  · have := (key (-x) y (by omega) hy).1
    rw [neg_tmod_eq] at this; omega
  · rcases le_total 0 x with hx | hx
    · have := key x y hx hy
      rw [abs_of_nonneg this.1]; exact this.2
    · have := key (-x) y (by omega) hy
      rw [neg_tmod_eq] at this
      rw [abs_of_nonpos (by omega)]; exact this.2

/-! ## `strtol` on the texts of the `number` rule -/

theorem strtol_digits_eq (ds : List Char) : strtol_digits ds = decimal_value ds := by
  unfold strtol_digits decimal_value
  rw [Nat.ofDigits_eq_foldr, List.foldr_map, List.foldr_reverse]
  congr 1
  funext acc c
  simp [Nat.add_comm]

theorem isspace_of_isdigit (c : Char) (hc : isdigit c = true) : isspace c = false := by
  simp only [isdigit, Bool.and_eq_true, decide_eq_true_eq] at hc
  simp only [isspace, Bool.or_eq_false_iff, decide_eq_false_iff_not]
  refine ⟨⟨⟨⟨⟨?_, ?_⟩, ?_⟩, ?_⟩, ?_⟩, ?_⟩ <;> (rintro rfl; revert hc; decide)

theorem strtol_numeral (h : Host) (s : List Char) (hs : is_numeral s = true) :
    strtol h s =
      if LONG_MAX h < text_value s then (LONG_MAX h, true)
      else if text_value s < LONG_MIN h then (LONG_MIN h, true)
      else (text_value s, false) := by
  cases s with
  | nil => simp [is_numeral] at hs
  | cons c r =>
    by_cases hc : c = '-'
    · subst hc
      simp only [is_numeral, if_true, Bool.and_eq_true, Bool.not_eq_true', List.all_eq_true] at hs
      have hsp : isspace '-' = false := by decide
      have htw : List.takeWhile isdigit r = r := List.takeWhile_eq_self_iff.mpr hs.2
      simp [strtol, text_value, List.dropWhile, hsp, htw, strtol_digits_eq]
    · simp only [is_numeral, hc, if_false, List.all_eq_true] at hs
      have hd : isdigit c = true := hs c (by simp)
      have hsp : isspace c = false := isspace_of_isdigit c hd
      have hd2 : c ≠ '+' := by rintro rfl; revert hd; decide
      have htw : List.takeWhile isdigit (c :: r) = c :: r := List.takeWhile_eq_self_iff.mpr hs
      simp [strtol, text_value, List.dropWhile, hsp, hc, hd2, htw, strtol_digits_eq]

/-! ## The number leaf -/

theorem eval_number (h : Host) (tag contents : List Char) (children : List mpc_ast_t)
    (htag : strstr tag "number".data = true) (hs : is_numeral contents = true) :
    eval h (.mk tag contents children) =
      if in_range h (text_value contents) then .ok (lval_num (text_value contents))
      else .ok (lval_err .LERR_BAD_NUM) := by
  unfold eval
  simp only [htag, if_true]
  rw [strtol_numeral h contents hs]
  unfold in_range
  by_cases h1 : LONG_MAX h < text_value contents
  · have : ¬ (text_value contents ≤ LONG_MAX h) := by omega
    simp [h1, this]
  · by_cases h2 : text_value contents < LONG_MIN h
    · have : ¬ (LONG_MIN h ≤ text_value contents) := by omega
      simp [h1, h2, this]
    · have h3 : LONG_MIN h ≤ text_value contents := by omega
      have h4 : text_value contents ≤ LONG_MAX h := by omega
      simp [h1, h2, h3, h4]

theorem eval_small_number (h : Host) (hb : 32 ≤ h.long_bits) (text : List Char)
    (hs : is_numeral text = true) (h1 : -2147483648 ≤ text_value text)
    (h2 : text_value text < 2147483648) :
    eval h (number_node text) = .ok (lval_num (text_value text)) := by
  unfold number_node
  rw [eval_number h _ _ _ (by decide) hs, if_pos (in_range_of_small h hb _ h1 h2)]

/-! ## The fold of `eval` -/

theorem foldl_eval_op_outcomes_fault (h : Host) (op : List Char) (f : Fault)
    (ys : List Outcome) :
    ys.foldl (eval_op_outcomes h op) (.fault f) = .fault f := by
  induction ys with
  | nil => rfl
  | cons y ys ih => simpa [List.foldl, eval_op_outcomes] using ih

theorem eval_loop_fold (h : Host) (op : List Char) (cl : mpc_ast_t) (tail : List mpc_ast_t)
    (hcl : strstr cl.tag "expr".data = false) :
    ∀ (rest : List mpc_ast_t) (x : lval),
      (∀ e ∈ rest, strstr e.tag "expr".data = true) →
      eval_loop h op x (rest ++ cl :: tail) =
        (rest.map (eval h)).foldl (eval_op_outcomes h op) (.ok x) := by
  intro rest
  induction rest with
  | nil =>
    intro x _
    simp [eval_loop, hcl]
  | cons e rest ih =>
    intro x hrest
    have he : strstr e.tag "expr".data = true := hrest e (by simp)
    have hrest1 : ∀ e1 ∈ rest, strstr e1.tag "expr".data = true :=
      fun e1 h1 => hrest e1 (by simp [h1])
    rw [List.cons_append, eval_loop, if_pos he]
    simp only [List.map_cons, List.foldl_cons]
    cases hy : eval h e with
    | fault f =>
      simp [eval_op_outcomes, foldl_eval_op_outcomes_fault]
    | ok y =>
      cases hx : eval_op h x op y with
      | fault f => simp [eval_op_outcomes, hx, foldl_eval_op_outcomes_fault]
      | ok x1 => simp [eval_op_outcomes, hx, ih x1 hrest1]

theorem eval_node_fold (h : Host) (tag contents : List Char) (c0 c1 e1 cl : mpc_ast_t)
    (rest tail : List mpc_ast_t)
    (htag : strstr tag "number".data = false)
    (hrest : ∀ e ∈ rest, strstr e.tag "expr".data = true)
    (hcl : strstr cl.tag "expr".data = false) :
    eval h (.mk tag contents (c0 :: c1 :: e1 :: (rest ++ cl :: tail))) =
      (rest.map (eval h)).foldl (eval_op_outcomes h c1.contents) (eval h e1) := by
  simp only [eval, htag, Bool.false_eq_true, if_false]
  cases h1 : eval h e1 with
  | fault f => simp [foldl_eval_op_outcomes_fault]
  | ok x => simpa using eval_loop_fold h c1.contents cl tail hcl rest x hrest

/-! ## The native division in `eval_op` -/

theorem eval_op_div (h : Host) (x y : Int) (hy : y ≠ 0) (hq : in_range h (Int.tdiv x y)) :
    eval_op h (lval_num x) "/".data (lval_num y) = .ok (lval_num (Int.tdiv x y)) := by
  simp [eval_op, long_div, hy, hq]

theorem eval_op_rem (h : Host) (x y : Int) (hy : y ≠ 0) (hq : in_range h (Int.tdiv x y)) :
    eval_op h (lval_num x) "%".data (lval_num y) = .ok (lval_num (Int.tmod x y)) := by
  simp [eval_op, long_rem, hy, hq]

/-! ## Induction on trees -/

theorem tree_induction {P : mpc_ast_t → Prop}
    (step : ∀ (tag contents : List Char) (children : List mpc_ast_t),
      (∀ c ∈ children, P c) → P (.mk tag contents children)) :
    ∀ t, P t := by
  intro t
  exact mpc_ast_t.rec (motive_1 := P) (motive_2 := fun l => ∀ c ∈ l, P c)
    (fun tag contents children ih => step tag contents children ih)
    (fun c hc => by simp at hc)
    (fun head tail ih1 ih2 c hc => by
      rcases List.mem_cons.mp hc with rfl | hmem
      · exact ih1
      · exact ih2 c hmem) t

/-! ## Errors in the fold -/

theorem eval_op_error (h : Host) (x : lval) (op : List Char) (y x1 : lval)
    (hx : eval_op h x op y = .ok x1) :
    x1.error = x.error.or (y.error.or ((Event.apply x op y).raised h)) := by
  cases x with
  | err e =>
    cases y <;> simp [eval_op] at hx <;> subst hx <;> simp [lval.error]
  | num a =>
    cases y with
    | err e =>
      simp [eval_op] at hx
      subst hx
      simp [lval.error]
    | num b =>
      simp only [lval.error, Event.raised, hx, Option.none_or]
      cases x1 <;> rfl

theorem first_raised_loop (h : Host) (op : List Char) :
    ∀ rest : List mpc_ast_t,
      (∀ c ∈ rest, ∀ v, eval h c = .ok v →
        (trace h c).findSome? (Event.raised h) = v.error) →
      ∀ x v, eval_loop h op x rest = .ok v →
        v.error = x.error.or ((trace_loop h op x rest).findSome? (Event.raised h)) := by
  intro rest
  induction rest with
  | nil =>
    intro _ x v hv
    simp [eval_loop] at hv
  | cons c rest ih =>
    intro hP x v hv
    have ih1 := ih (fun c1 h1 => hP c1 (by simp [h1]))
    by_cases hc : strstr c.tag "expr".data = true
    · simp only [eval_loop, hc, if_true] at hv
      simp only [trace_loop, hc, if_true]
      cases hy : eval h c with
      | fault f => simp [hy] at hv
      | ok y =>
        simp only [hy] at hv
        cases hx : eval_op h x op y with
        | fault f => simp [hx] at hv
        | ok x1 =>
          simp only [hx] at hv
          have e1 := ih1 x1 v hv
          have e2 := hP c (by simp) y hy
          have e3 := eval_op_error h x op y x1 hx
          simp only [hy, hx, List.findSome?_append, List.findSome?_cons, e2]
          rw [e1, e3]
          cases x.error <;> cases y.error <;> cases (Event.apply x op y).raised h <;> rfl
    · simp only [eval_loop, hc, Bool.false_eq_true, if_false] at hv
      simp only [trace_loop, hc, Bool.false_eq_true, if_false]
      cases hv
      simp

theorem first_raised_eq (h : Host) :
    ∀ t v, eval h t = .ok v → first_raised h t = v.error := by
  intro t
  induction t using tree_induction with
  | step tag contents children ih =>
    intro v hv
    unfold first_raised
    by_cases htag : strstr tag "number".data = true
    · unfold eval at hv
      unfold trace
      simp only [htag, if_true] at hv ⊢
      by_cases hr : (strtol h contents).2 = true
      · simp only [hr, if_true] at hv
        cases hv
        simp [Event.raised, hr, lval.error]
      · simp only [hr, Bool.false_eq_true, if_false] at hv
        cases hv
        simp [Event.raised, hr, lval.error]
    · rcases children with _ | ⟨c0, _ | ⟨c1, _ | ⟨c2, rest⟩⟩⟩
      · simp [eval, htag] at hv
      · simp [eval, htag] at hv
      · simp [eval, htag] at hv
      · simp only [eval, htag, Bool.false_eq_true, if_false] at hv
        simp only [trace, htag, Bool.false_eq_true, if_false]
        cases hx : eval h c2 with
        | fault f => simp [hx] at hv
        | ok x =>
          simp only [hx] at hv
          have e1 := first_raised_loop h c1.contents rest
            (fun c hc v1 hv1 => ih c (by simp [hc]) v1 hv1) x v hv
          have e2 := ih c2 (by simp) x hx
          unfold first_raised at e2
          rw [List.findSome?_append, e2, e1]

theorem eval_op_keeps_error (h : Host) (x : lval) (op : List Char) (y x1 : lval)
    (hx : eval_op h x op y = .ok x1) :
    ((∃ e, x = lval_err e) → ∃ e, x1 = lval_err e)
      ∧ ((∃ e, y = lval_err e) → ∃ e, x1 = lval_err e) := by
  constructor
  · rintro ⟨e, rfl⟩
    cases y <;> simp [eval_op] at hx <;> exact ⟨e, hx.symm⟩
  · rintro ⟨e, rfl⟩
    cases x with
    | err e0 =>
      simp [eval_op] at hx
      exact ⟨e0, hx.symm⟩
    | num a =>
      simp [eval_op] at hx
      exact ⟨e, hx.symm⟩

theorem eval_loop_operands (h : Host) (op : List Char) :
    ∀ (rest : List mpc_ast_t) (x v : lval), eval_loop h op x rest = .ok v →
      ((∃ e, x = lval_err e) → ∃ e, v = lval_err e)
        ∧ ∀ c ∈ rest.takeWhile (fun c => strstr c.tag "expr".data),
            ∃ vc, eval h c = .ok vc ∧ ((∃ e, vc = lval_err e) → ∃ e, v = lval_err e) := by
  intro rest
  induction rest with
  | nil =>
    intro x v hv
    simp [eval_loop] at hv
  | cons c rest ih =>
    intro x v hv
    by_cases hc : strstr c.tag "expr".data = true
    · simp only [eval_loop, hc, if_true] at hv
      cases hy : eval h c with
      | fault f => simp [hy] at hv
      | ok y =>
        simp only [hy] at hv
        cases hx : eval_op h x op y with
        | fault f => simp [hx] at hv
        | ok x1 =>
          simp only [hx] at hv
          have k := ih x1 v hv
          have k1 := eval_op_keeps_error h x op y x1 hx
          refine ⟨fun hxe => k.1 (k1.1 hxe), ?_⟩
          intro c1 hc1
          rw [List.takeWhile_cons, if_pos hc] at hc1
          rcases List.mem_cons.mp hc1 with rfl | hmem
          · exact ⟨y, hy, fun hye => k.1 (k1.2 hye)⟩
          · exact k.2 c1 hmem
    · simp only [eval_loop, hc, Bool.false_eq_true, if_false] at hv
      cases hv
      refine ⟨fun hxe => hxe, ?_⟩
      intro c1 hc1
      rw [List.takeWhile_cons, if_neg hc] at hc1
      simp at hc1

theorem operand_outcome (h : Host) (t c : mpc_ast_t) (v : lval) (hv : eval h t = .ok v)
    (hc : c ∈ operands t) :
    ∃ vc, eval h c = .ok vc ∧ ((∃ e, vc = lval_err e) → ∃ e, v = lval_err e) := by
  obtain ⟨tag, contents, children⟩ := t
  by_cases htag : strstr tag "number".data = true
  · simp [operands, htag] at hc
  · rcases children with _ | ⟨c0, _ | ⟨c1, _ | ⟨c2, rest⟩⟩⟩
    · simp [operands, htag] at hc
    · simp [operands, htag] at hc
    · simp [operands, htag] at hc
    · simp only [eval, htag, Bool.false_eq_true, if_false] at hv
      simp only [operands, htag, Bool.false_eq_true, if_false] at hc
      cases hx : eval h c2 with
      | fault f => simp [hx] at hv
      | ok x =>
        simp only [hx] at hv
        have k := eval_loop_operands h c1.contents rest x v hv
        rcases List.mem_cons.mp hc with rfl | hmem
        · exact ⟨x, hx, k.1⟩
        · exact k.2 c hmem

theorem sub_expression_error (h : Host) (t s : mpc_ast_t) (hs : sub_expression t s) :
    ∀ v, eval h t = .ok v → ∀ e, eval h s = .ok (lval_err e) → ∃ e1, v = lval_err e1 := by
  induction hs with
  | refl t =>
    intro v hv e he
    rw [hv] at he
    cases he
    exact ⟨e, rfl⟩
  | step t c s hc _ ih =>
    intro v hv e he
    obtain ⟨vc, hvc, himp⟩ := operand_outcome h t c v hv hc
    exact himp (ih vc hvc e he)

/-! ## An error in the accumulator -/

theorem foldl_error_absorbs (h : Host) (op : List Char) (k : LErr) :
    ∀ ys : List Outcome, (∀ y ∈ ys, ∃ v, y = .ok v) →
      ys.foldl (eval_op_outcomes h op) (.ok (lval_err k)) = .ok (lval_err k) := by
  intro ys
  induction ys with
  | nil => intro _; rfl
  | cons y ys ih =>
    intro hy
    obtain ⟨v, rfl⟩ := hy y (by simp)
    have hstep : eval_op_outcomes h op (.ok (lval_err k)) (.ok v) = .ok (lval_err k) := by
      cases v <;> rfl
    rw [List.foldl_cons, hstep]
    exact ih (fun y1 h1 => hy y1 (by simp [h1]))

theorem foldl_error_then_fault (h : Host) (op : List Char) (k : LErr) (f : Fault)
    (p1 p2 : List Outcome) (hp1 : ∀ y ∈ p1, ∃ v, y = .ok v) :
    (p1 ++ .fault f :: p2).foldl (eval_op_outcomes h op) (.ok (lval_err k)) = .fault f := by
  rw [List.foldl_append, foldl_error_absorbs h op k p1 hp1, List.foldl_cons]
  exact foldl_eval_op_outcomes_fault h op f p2

/-! ## Evaluation of the trees of the parser -/

theorem parsed_expr_tag (e : mpc_ast_t) (he : parsed_expr e) :
    strstr e.tag "expr".data = true := by
  cases he with
  | number text _ =>
    show strstr "expr|number|regex".data "expr".data = true
    decide
  | paren op e1 es _ _ _ =>
    show strstr "expr|>".data "expr".data = true
    decide

theorem eval_op_total (h : Host) (a b : Int) (op : List Char) (hop : op ∈ operator_tokens)
    (hs : (Event.apply (lval_num a) op (lval_num b)).safe h) :
    ∃ n, eval_op h (lval_num a) op (lval_num b) = .ok (lval_num n) := by
  obtain ⟨_, hd, hq⟩ := hs
  simp only [Event.divisor_not_zero, Event.quotient_in_range] at hd hq
  simp only [operator_tokens, List.mem_cons, List.mem_singleton, List.not_mem_nil,
    or_false] at hop
  rcases hop with rfl | rfl | rfl | rfl | rfl | rfl | rfl | rfl
  · exact ⟨wrap_long h (a + b), by simp [eval_op]⟩
  · exact ⟨wrap_long h (a - b), by simp [eval_op]⟩
  · exact ⟨wrap_long h (a * b), by simp [eval_op]⟩
  · have hb : b ≠ 0 := fun hb0 => hd (Or.inl rfl) (by rw [hb0])
    exact ⟨_, eval_op_div h a b hb (hq (Or.inl rfl))⟩
  · exact ⟨wrap_long h (h.pow_long a b), by simp [eval_op]⟩
  · have hb : b ≠ 0 := fun hb0 => hd (Or.inr rfl) (by rw [hb0])
    exact ⟨_, eval_op_rem h a b hb (hq (Or.inr rfl))⟩
  · exact ⟨if a < b then a else b, by simp [eval_op]⟩
  · exact ⟨if a > b then a else b, by simp [eval_op]⟩

theorem eval_loop_total (h : Host) (op : List Char) (cl : mpc_ast_t)
    (hop : op ∈ operator_tokens) (hcl : strstr cl.tag "expr".data = false) :
    ∀ es : List mpc_ast_t,
      (∀ x ∈ es, strstr x.tag "expr".data = true) →
      (∀ x ∈ es, (∀ ev ∈ trace h x, ev.safe h) → ∃ n, eval h x = .ok (lval_num n)) →
      ∀ a : Int, (∀ ev ∈ trace_loop h op (lval_num a) (es ++ [cl]), ev.safe h) →
        ∃ n, eval_loop h op (lval_num a) (es ++ [cl]) = .ok (lval_num n) := by
  intro es
  induction es with
  | nil =>
    intro _ _ a _
    exact ⟨a, by simp [eval_loop, hcl]⟩
  | cons x es ih =>
    intro htags hev a hsafe
    have hx : strstr x.tag "expr".data = true := htags x (by simp)
    simp only [List.cons_append, trace_loop, hx, if_true] at hsafe
    simp only [List.cons_append, eval_loop, hx, if_true]
    obtain ⟨b, hb⟩ := hev x (by simp)
      (fun ev hmem => hsafe ev (List.mem_append_left _ hmem))
    simp only [hb] at hsafe ⊢
    obtain ⟨c, hc⟩ := eval_op_total h a b op hop
      (hsafe _ (List.mem_append_right _ (List.mem_cons_self _ _)))
    simp only [hc] at hsafe ⊢
    exact ih (fun y hy => htags y (by simp [hy])) (fun y hy => hev y (by simp [hy])) c
      (fun ev hmem => hsafe ev
        (List.mem_append_right _ (List.mem_cons_of_mem _ hmem)))

theorem eval_node_total (h : Host) (tag contents : List Char) (c0 cl e : mpc_ast_t)
    (op : List Char) (es : List mpc_ast_t)
    (htag : strstr tag "number".data = false)
    (hop : op ∈ operator_tokens) (hcl : strstr cl.tag "expr".data = false)
    (htags : ∀ x ∈ es, strstr x.tag "expr".data = true)
    (he : (∀ ev ∈ trace h e, ev.safe h) → ∃ n, eval h e = .ok (lval_num n))
    (hes : ∀ x ∈ es, (∀ ev ∈ trace h x, ev.safe h) → ∃ n, eval h x = .ok (lval_num n))
    (hsafe : ∀ ev ∈ trace h (.mk tag contents (c0 :: operator_node op :: ((e :: es) ++ [cl]))),
      ev.safe h) :
    ∃ n, eval h (.mk tag contents (c0 :: operator_node op :: ((e :: es) ++ [cl])))
      = .ok (lval_num n) := by
  simp only [List.cons_append, trace, htag, Bool.false_eq_true, if_false] at hsafe
  simp only [List.cons_append, eval, htag, Bool.false_eq_true, if_false]
  obtain ⟨a, ha⟩ := he (fun ev hmem => hsafe ev (List.mem_append_left _ hmem))
  simp only [ha] at hsafe ⊢
  have hc : (operator_node op).contents = op := rfl
  rw [hc] at hsafe ⊢
  exact eval_loop_total h op cl hop hcl es htags hes a
    (fun ev hmem => hsafe ev (List.mem_append_right _ hmem))

theorem eval_parsed_expr (h : Host) (e : mpc_ast_t) (he : parsed_expr e) :
    (∀ ev ∈ trace h e, ev.safe h) → ∃ n, eval h e = .ok (lval_num n) := by
  induction he with
  | number text hnum =>
    intro hsafe
    have hin : in_range h (text_value text) := by
      have := (hsafe (Event.number text) (by simp [number_node, trace, strstr])).1
      exact this
    exact ⟨text_value text, by
      unfold number_node
      rw [eval_number h _ _ _ (by decide) hnum, if_pos hin]⟩
  | paren op e1 es hop he1 hes ih1 ih2 =>
    intro hsafe
    exact eval_node_total h "expr|>".data [] (char_node "(".data) (char_node ")".data) e1 op es
      (by decide) hop (by decide) (fun x hx => parsed_expr_tag x (hes x hx)) ih1 ih2 hsafe

/-! ## Numbers stay representable -/

theorem tmod_between (a b : Int) :
    (0 ≤ a → 0 ≤ Int.tmod a b ∧ Int.tmod a b ≤ a)
      ∧ (a ≤ 0 → a ≤ Int.tmod a b ∧ Int.tmod a b ≤ 0) := by
  have key : ∀ x y : Int, 0 ≤ x → 0 ≤ x.tmod y ∧ x.tmod y ≤ x := by
    intro x y hx
    refine ⟨Int.tmod_nonneg y hx, ?_⟩
    obtain ⟨m, rfl⟩ := Int.eq_ofNat_of_zero_le hx
    obtain ⟨n, rfl | rfl⟩ := Int.eq_nat_or_neg y
    · rw [← Int.ofNat_tmod]
      exact Int.ofNat_le.mpr (Nat.mod_le m n)
    · rw [Int.tmod_neg, ← Int.ofNat_tmod]
      exact Int.ofNat_le.mpr (Nat.mod_le m n)
  refine ⟨key a b, fun ha => ?_⟩
  have := key (-a) b (by omega)
  rw [neg_tmod_eq] at this
  omega

theorem tmod_in_range (h : Host) (a b : Int) (ha : in_range h a) :
    in_range h (Int.tmod a b) := by
  have hP := half_pos h
  have hk := tmod_between a b
  unfold in_range LONG_MIN LONG_MAX at ha ⊢
  rcases le_total 0 a with h0 | h0
  · have := hk.1 h0
    constructor <;> omega
  · have := hk.2 h0
    constructor <;> omega

theorem strtol_in_range (h : Host) (s : List Char) (hs : (strtol h s).2 = false) :
    in_range h (strtol h s).1 := by
  unfold strtol at hs ⊢
  simp only [] at hs ⊢
  split_ifs at hs ⊢ with h1 h2 h3
  all_goals first
    | (exfalso; simp at hs; done)
    | (unfold in_range; constructor <;> omega)

theorem eval_op_in_range (h : Host) (hb : 0 < h.long_bits) (x y : lval) (op : List Char)
    (n : Int) (hx : ∀ a, x = lval_num a → in_range h a)
    (hy : ∀ b, y = lval_num b → in_range h b)
    (hres : eval_op h x op y = .ok (lval_num n)) : in_range h n := by
  cases x with
  | err e => cases y <;> simp [eval_op] at hres
  | num a =>
    cases y with
    | err e => simp [eval_op] at hres
    | num b =>
      have ha := hx a rfl
      have hbr := hy b rfl
      by_cases o1 : op = "+".data
      · subst o1
        simp [eval_op] at hres
        rw [← hres]
        exact in_range_wrap_long h hb _
      by_cases o2 : op = "-".data
      · subst o2
        simp [eval_op] at hres
        rw [← hres]
        exact in_range_wrap_long h hb _
      by_cases o3 : op = "*".data
      · subst o3
        simp [eval_op] at hres
        rw [← hres]
        exact in_range_wrap_long h hb _
      by_cases o4 : op = "/".data
      · subst o4
        by_cases hz : b = 0
        · simp [eval_op, hz] at hres
        · by_cases hq : in_range h (Int.tdiv a b)
          · simp [eval_op, hz, long_div, hq] at hres
            rw [← hres]
            exact hq
          · simp [eval_op, hz, long_div, hq] at hres
      by_cases o5 : op = "%".data
      · subst o5
        by_cases hz : b = 0
        · simp [eval_op, hz, long_rem] at hres
        · by_cases hq : in_range h (Int.tdiv a b)
          · simp [eval_op, hz, long_rem, hq] at hres
            rw [← hres]
            exact tmod_in_range h a b ha
          · simp [eval_op, hz, long_rem, hq] at hres
      by_cases o6 : op = "^".data
      · subst o6
        simp [eval_op] at hres
        rw [← hres]
        exact in_range_wrap_long h hb _
      by_cases o7 : op = "min".data
      · subst o7
        simp [eval_op] at hres
        rw [← hres]
        split_ifs
        · exact ha
        · exact hbr
      by_cases o8 : op = "max".data
      · subst o8
        simp [eval_op] at hres
        rw [← hres]
        split_ifs
        · exact ha
        · exact hbr
      simp [eval_op, o1, o2, o3, o4, o5, o6, o7, o8] at hres

theorem eval_loop_in_range (h : Host) (hb : 0 < h.long_bits) (op : List Char) :
    ∀ rest : List mpc_ast_t,
      (∀ c ∈ rest, ∀ n, eval h c = .ok (lval_num n) → in_range h n) →
      ∀ (x : lval) (n : Int), (∀ a, x = lval_num a → in_range h a) →
        eval_loop h op x rest = .ok (lval_num n) → in_range h n := by
  intro rest
  induction rest with
  | nil =>
    intro _ x n _ hv
    simp [eval_loop] at hv
  | cons c rest ih =>
    intro hP x n hx hv
    by_cases hc : strstr c.tag "expr".data = true
    · simp only [eval_loop, hc, if_true] at hv
      cases hy : eval h c with
      | fault f => simp [hy] at hv
      | ok y =>
        simp only [hy] at hv
        cases hx1 : eval_op h x op y with
        | fault f => simp [hx1] at hv
        | ok x1 =>
          simp only [hx1] at hv
          refine ih (fun c1 h1 => hP c1 (by simp [h1])) x1 n ?_ hv
          intro a1 ha1
          subst ha1
          exact eval_op_in_range h hb x y op a1 hx
            (fun b hb1 => hP c (by simp) b (by rw [hy, hb1])) hx1
    · simp only [eval_loop, hc, Bool.false_eq_true, if_false] at hv
      cases hv
      exact hx n rfl

theorem eval_in_range (h : Host) (hb : 0 < h.long_bits) :
    ∀ (t : mpc_ast_t) (n : Int), eval h t = .ok (lval_num n) → in_range h n := by
  intro t
  induction t using tree_induction with
  | step tag contents children ih =>
    intro n hv
    by_cases htag : strstr tag "number".data = true
    · unfold eval at hv
      simp only [htag, if_true] at hv
      by_cases hr : (strtol h contents).2 = true
      · simp [hr] at hv
      · simp only [hr, Bool.false_eq_true, if_false, Outcome.ok.injEq, lval.num.injEq] at hv
        subst hv
        exact strtol_in_range h contents (by simpa using hr)
    · rcases children with _ | ⟨c0, _ | ⟨c1, _ | ⟨c2, rest⟩⟩⟩
      · simp [eval, htag] at hv
      · simp [eval, htag] at hv
      · simp [eval, htag] at hv
      · simp only [eval, htag, Bool.false_eq_true, if_false] at hv
        cases hx : eval h c2 with
        | fault f => simp [hx] at hv
        | ok x =>
          simp only [hx] at hv
          refine eval_loop_in_range h hb c1.contents rest
            (fun c hc => ih c (by simp [hc])) x n ?_ hv
          intro a ha
          subst ha
          exact ih c2 (by simp) a hx

/-! ## Replacing an operand -/

theorem eval_loop_congr (h : Host) (op : List Char) (c c1 : mpc_ast_t)
    (post : List mpc_ast_t) (heq : eval h c1 = eval h c)
    (htag : strstr c1.tag "expr".data = strstr c.tag "expr".data) :
    ∀ (pre : List mpc_ast_t) (x : lval),
      eval_loop h op x (pre ++ c1 :: post) = eval_loop h op x (pre ++ c :: post) := by
  intro pre
  induction pre with
  | nil =>
    intro x
    simp only [List.nil_append, eval_loop, htag, heq]
  | cons p pre ih =>
    intro x
    simp only [List.cons_append, eval_loop]
    by_cases hp : strstr p.tag "expr".data = true
    · simp only [hp, if_true]
      cases eval h p with
      | fault f => rfl
      | ok y =>
        dsimp only
        cases eval_op h x op y with
        | fault f => rfl
        | ok x1 => exact ih x1
    · simp only [hp, Bool.false_eq_true, if_false]

theorem eval_replace_child (h : Host) (tag contents : List Char)
    (pre post : List mpc_ast_t) (c c1 : mpc_ast_t) (hlen : 2 ≤ pre.length)
    (heq : eval h c1 = eval h c)
    (htag : strstr c1.tag "expr".data = strstr c.tag "expr".data) :
    eval h (.mk tag contents (pre ++ c1 :: post))
      = eval h (.mk tag contents (pre ++ c :: post)) := by
  rcases pre with _ | ⟨p0, _ | ⟨p1, pre2⟩⟩
  · simp at hlen
  · simp at hlen
  · by_cases hnum : strstr tag "number".data = true
    · unfold eval
      simp only [hnum, if_true]
    · rcases pre2 with _ | ⟨e1, pre3⟩
      · simp only [List.cons_append, List.nil_append, eval, hnum, heq]
      · simp only [List.cons_append, eval, hnum]
        cases eval h e1 with
        | fault f => rfl
        | ok x => exact eval_loop_congr h p1.contents c c1 post heq htag pre3 x

theorem replaced_eval (h : Host) (sub new t t1 : mpc_ast_t)
    (heq : eval h new = eval h sub)
    (htag : strstr new.tag "expr".data = strstr sub.tag "expr".data)
    (hrep : replaced sub new t t1) :
    eval h t1 = eval h t ∧ strstr t1.tag "expr".data = strstr t.tag "expr".data := by
  induction hrep with
  | here => exact ⟨heq, htag⟩
  | child tag contents pre post c c1 hlen _ ih =>
    exact ⟨eval_replace_child h tag contents pre post c c1 hlen ih.1 ih.2, rfl⟩

/-! ## The decimal text of a number -/

theorem digit_char_facts (d : Nat) (hd : d < 10) :
    digit_value (digit_char d) = d ∧ isdigit (digit_char d) = true
      ∧ digit_char d ≠ '-' := by
  interval_cases d <;> decide

theorem render_digits_eq :
    ∀ (f n : Nat) (acc : List Char), n < f → 0 < n →
      render_digits f n acc = (Nat.digits 10 n).reverse.map digit_char ++ acc := by
  intro f
  induction f with
  | zero => intro n acc hlt; omega
  | succ f ih =>
    intro n acc hlt hpos
    by_cases h10 : n < 10
    · simp [render_digits, h10, Nat.digits_of_lt 10 n (by omega) h10]
    · have hdef : Nat.digits 10 n = n % 10 :: Nat.digits 10 (n / 10) :=
        Nat.digits_def' (by norm_num) hpos
      rw [render_digits, if_neg h10, ih (n / 10) _ (by omega) (by omega), hdef]
      simp

theorem render_nat_eq (n : Nat) (hpos : 0 < n) :
    render_nat n = (Nat.digits 10 n).reverse.map digit_char := by
  unfold render_nat
  rw [render_digits_eq (n + 1) n [] (by omega) hpos]
  simp

theorem render_nat_zero : render_nat 0 = ['0'] := by decide

theorem render_nat_isdigit (n : Nat) : ∀ c ∈ render_nat n, isdigit c = true := by
  intro c hc
  rcases Nat.eq_zero_or_pos n with rfl | hpos
  · rw [render_nat_zero] at hc
    simp at hc
    subst hc
    decide
  · rw [render_nat_eq n hpos] at hc
    simp only [List.mem_map, List.mem_reverse] at hc
    obtain ⟨d, hd, rfl⟩ := hc
    exact (digit_char_facts d (Nat.digits_lt_base (by norm_num) hd)).2.1

theorem render_nat_ne_nil (n : Nat) : render_nat n ≠ [] := by
  rcases Nat.eq_zero_or_pos n with rfl | hpos
  · rw [render_nat_zero]; simp
  · rw [render_nat_eq n hpos]
    have : Nat.digits 10 n ≠ [] := Nat.digits_ne_nil_iff_ne_zero.mpr (by omega)
    simpa using this

theorem decimal_value_render_nat (n : Nat) : decimal_value (render_nat n) = n := by
  rcases Nat.eq_zero_or_pos n with rfl | hpos
  · rw [render_nat_zero]; decide
  · rw [render_nat_eq n hpos]
    unfold decimal_value
    rw [← List.map_reverse, List.reverse_reverse, List.map_map]
    have hmap : (Nat.digits 10 n).map (digit_value ∘ digit_char) = Nat.digits 10 n := by
      conv_rhs => rw [← List.map_id (Nat.digits 10 n)]
      apply List.map_congr_left
      intro d hd
      exact (digit_char_facts d (Nat.digits_lt_base (by norm_num) hd)).1
    rw [hmap, Nat.ofDigits_digits]

theorem render_nat_head (n : Nat) :
    ∃ c r, render_nat n = c :: r ∧ c ≠ '-' := by
  have hne := render_nat_ne_nil n
  obtain ⟨c, r, hcr⟩ := List.exists_cons_of_ne_nil hne
  refine ⟨c, r, hcr, ?_⟩
  have hd := render_nat_isdigit n c (by rw [hcr]; simp)
  rintro rfl
  revert hd
  decide

theorem printf_li_numeral (n : Int) :
    is_numeral (printf_li n) = true ∧ text_value (printf_li n) = n := by
  have hall := render_nat_isdigit n.natAbs
  have hval := decimal_value_render_nat n.natAbs
  by_cases hneg : n < 0
  · simp only [printf_li, hneg, if_true, is_numeral, text_value]
    refine ⟨?_, ?_⟩
    · have hne := render_nat_ne_nil n.natAbs
      simp only [Bool.and_eq_true, Bool.not_eq_true', List.all_eq_true]
      refine ⟨?_, hall⟩
      cases hr : render_nat n.natAbs with
      | nil => exact absurd hr hne
      | cons c r => rfl
    · rw [hval]
      omega
  · simp only [printf_li, hneg, if_false]
    obtain ⟨c, r, hcr, hc⟩ := render_nat_head n.natAbs
    rw [hcr] at hall hval ⊢
    simp only [is_numeral, text_value, hc, if_false, List.all_eq_true]
    refine ⟨hall, ?_⟩
    rw [hval]
    omega

theorem lval_print_err_not_numeral (e : LErr) : is_numeral (lval_print (lval_err e)) = false := by
  cases e <;> decide

/-! ## The fold of `min` and `max` -/

theorem eval_op_min_max (h : Host) (a b : Int) :
    eval_op h (lval_num a) "min".data (lval_num b) = .ok (lval_num (min a b))
      ∧ eval_op h (lval_num a) "max".data (lval_num b) = .ok (lval_num (max a b)) := by
  constructor
  · by_cases hab : a < b
    · simp [eval_op, hab, min_eq_left (le_of_lt hab)]
    · simp [eval_op, hab, min_eq_right (not_lt.mp hab)]
  · by_cases hab : a > b
    · simp [eval_op, hab, max_eq_left (le_of_lt hab)]
    · simp [eval_op, hab, max_eq_right (not_lt.mp hab)]

theorem foldl_numbers (h : Host) (op : List Char) (f : Int → Int → Int)
    (hf : ∀ a b, eval_op h (lval_num a) op (lval_num b) = .ok (lval_num (f a b))) :
    ∀ (vs : List Int) (v1 : Int),
      (vs.map (fun v => Outcome.ok (lval_num v))).foldl (eval_op_outcomes h op)
        (.ok (lval_num v1)) = .ok (lval_num (vs.foldl f v1)) := by
  intro vs
  induction vs with
  | nil => intro v1; rfl
  | cons w vs ih =>
    intro v1
    simp only [List.map_cons, List.foldl_cons, eval_op_outcomes, hf]
    exact ih (f v1 w)

theorem foldl_min_spec :
    ∀ (vs : List Int) (v1 : Int),
      vs.foldl min v1 ∈ v1 :: vs ∧ ∀ v ∈ v1 :: vs, vs.foldl min v1 ≤ v := by
  intro vs
  induction vs with
  | nil => intro v1; simp
  | cons w vs ih =>
    intro v1
    obtain ⟨hm, hle⟩ := ih (min v1 w)
    have h0 := hle (min v1 w) (by simp)
    simp only [List.foldl_cons]
    constructor
    · rcases List.mem_cons.mp hm with heq | hin
      · rw [heq]
        rcases min_choice v1 w with hc | hc <;> rw [hc] <;> simp
      · simp [hin]
    · intro v hv
      simp only [List.mem_cons] at hv
      rcases hv with rfl | rfl | hin
      · exact le_trans h0 (min_le_left _ _)
      · exact le_trans h0 (min_le_right _ _)
      · exact hle v (by simp [hin])

theorem foldl_max_spec :
    ∀ (vs : List Int) (v1 : Int),
      vs.foldl max v1 ∈ v1 :: vs ∧ ∀ v ∈ v1 :: vs, v ≤ vs.foldl max v1 := by
  intro vs
  induction vs with
  | nil => intro v1; simp
  | cons w vs ih =>
    intro v1
    obtain ⟨hm, hle⟩ := ih (max v1 w)
    have h0 := hle (max v1 w) (by simp)
    simp only [List.foldl_cons]
    constructor
    · rcases List.mem_cons.mp hm with heq | hin
      · rw [heq]
        rcases max_choice v1 w with hc | hc <;> rw [hc] <;> simp
      · simp [hin]
    · intro v hv
      simp only [List.mem_cons] at hv
      rcases hv with rfl | rfl | hin
      · exact le_trans (le_max_left _ _) h0
      · exact le_trans (le_max_right _ _) h0
      · exact hle v (by simp [hin])

theorem exists_values (h : Host) :
    ∀ es : List mpc_ast_t, (∀ e ∈ es, ∃ v, eval h e = .ok (lval_num v)) →
      ∃ vs : List Int, es.map (eval h) = vs.map (fun v => Outcome.ok (lval_num v)) := by
  intro es
  induction es with
  | nil => intro _; exact ⟨[], rfl⟩
  | cons e es ih =>
    intro hnum
    obtain ⟨v, hv⟩ := hnum e (by simp)
    obtain ⟨vs, hvs⟩ := ih (fun x hx => hnum x (by simp [hx]))
    exact ⟨v :: vs, by simp [hv, hvs]⟩

theorem select_node (h : Host) (f : Int → Int → Int) (le : Int → Int → Prop)
    (hspec : ∀ (vs : List Int) (v1 : Int),
      vs.foldl f v1 ∈ v1 :: vs ∧ ∀ v ∈ v1 :: vs, le (vs.foldl f v1) v)
    (tag contents : List Char) (c0 c1 e1 cl : mpc_ast_t) (rest tail : List mpc_ast_t)
    (hf : ∀ a b, eval_op h (lval_num a) c1.contents (lval_num b) = .ok (lval_num (f a b)))
    (htag : strstr tag "number".data = false)
    (hops : ∀ e ∈ e1 :: rest, strstr e.tag "expr".data = true)
    (hcl : strstr cl.tag "expr".data = false)
    (hnum : ∀ e ∈ e1 :: rest, ∃ v, eval h e = .ok (lval_num v)) :
    ∃ m, eval h (.mk tag contents (c0 :: c1 :: e1 :: (rest ++ cl :: tail))) = .ok (lval_num m)
      ∧ (∃ e ∈ e1 :: rest, eval h e = .ok (lval_num m))
      ∧ ∀ e ∈ e1 :: rest, ∀ v, eval h e = .ok (lval_num v) → le m v := by
  obtain ⟨v1, hv1⟩ := hnum e1 (by simp)
  obtain ⟨vs, hvs⟩ := exists_values h rest (fun x hx => hnum x (by simp [hx]))
  have hfold := eval_node_fold h tag contents c0 c1 e1 cl rest tail htag
    (fun e he => hops e (by simp [he])) hcl
  rw [hv1, hvs, foldl_numbers h c1.contents f hf vs v1] at hfold
  obtain ⟨hm, hle⟩ := hspec vs v1
  have hback : ∀ v, v ∈ vs ↔ ∃ e ∈ rest, eval h e = .ok (lval_num v) := by
    intro v
    constructor
    · intro hv
      have : Outcome.ok (lval_num v) ∈ rest.map (eval h) := by
        rw [hvs]; exact List.mem_map.mpr ⟨v, hv, rfl⟩
      obtain ⟨e, he, hev⟩ := List.mem_map.mp this
      exact ⟨e, he, hev⟩
    · rintro ⟨e, he, hev⟩
      have : Outcome.ok (lval_num v) ∈ vs.map (fun v => Outcome.ok (lval_num v)) := by
        rw [← hvs]; exact List.mem_map.mpr ⟨e, he, hev⟩
      obtain ⟨v', hv', heq⟩ := List.mem_map.mp this
      simp only [Outcome.ok.injEq, lval.num.injEq] at heq
      rw [← heq]; exact hv'
  refine ⟨vs.foldl f v1, hfold, ?_, ?_⟩
  · rcases List.mem_cons.mp hm with heq | hin
    · exact ⟨e1, by simp, by rw [heq]; exact hv1⟩
    · obtain ⟨e, he, hev⟩ := (hback _).mp hin
      exact ⟨e, by simp [he], hev⟩
  · intro e he v hev
    rcases List.mem_cons.mp he with rfl | hin
    · rw [hv1] at hev
      simp only [Outcome.ok.injEq, lval.num.injEq] at hev
      rw [← hev]; exact hle v1 (by simp)
    · exact hle v (by simp [(hback v).mpr ⟨e, hin, hev⟩])

/-! ## The trees of the parser model -/

theorem parse_number_numeral (s text rest : List Char)
    (hp : parse_number s = some (text, rest)) : is_numeral text = true := by
  cases s with
  | nil => simp [parse_number] at hp
  | cons c r =>
    by_cases hc : c = '-'
    · subst hc
      simp only [parse_number, if_true] at hp
      by_cases he : (List.takeWhile isdigit r).isEmpty = true
      · simp [he] at hp
      · simp only [he, Bool.false_eq_true, if_false, Option.some.injEq, Prod.mk.injEq] at hp
        rw [← hp.1]
        simp only [is_numeral, if_true, Bool.and_eq_true, Bool.not_eq_true', List.all_eq_true]
        exact ⟨by simpa using he, fun x hx => List.mem_takeWhile_imp hx⟩
    · simp only [parse_number, hc, if_false] at hp
      by_cases he : (List.takeWhile isdigit (c :: r)).isEmpty = true
      · simp [he] at hp
      · simp only [he, Bool.false_eq_true, if_false, Option.some.injEq, Prod.mk.injEq] at hp
        have hall : ∀ x ∈ text, isdigit x = true := by
          intro x hx
          rw [← hp.1] at hx
          exact List.mem_takeWhile_imp hx
        have hne : text ≠ [] := by
          rw [← hp.1]
          simpa using he
        obtain ⟨d, ds, rfl⟩ := List.exists_cons_of_ne_nil hne
        have hd : d ≠ '-' := by
          have := hall d (by simp)
          rintro rfl
          revert this
          decide
        simp only [is_numeral, hd, if_false, List.all_eq_true]
        exact hall

theorem parse_operator_token (s op rest : List Char)
    (hp : parse_operator s = some (op, rest)) :
    op ∈ operator_tokens ∧ op.isPrefixOf s = true ∧ rest = skip_space (s.drop op.length) := by
  unfold parse_operator at hp
  obtain ⟨tok, hmem, htok⟩ := List.exists_of_findSome?_eq_some hp
  by_cases hpre : tok.isPrefixOf s = true
  · simp only [hpre, if_true, Option.some.injEq, Prod.mk.injEq] at htok
    obtain ⟨h1, h2⟩ := htok
    subst h1
    exact ⟨hmem, hpre, h2.symm⟩
  · simp [hpre] at htok

theorem parse_expr_succ (n : Nat) (s : List Char) :
    parse_expr (n + 1) s =
      match parse_number s with
      | some (text, rest) => some (number_node text, rest)
      | none =>
        match s with
        | [] => none
        | c :: r =>
          if c = '(' then
            match parse_operator (skip_space r) with
            | none => none
            | some (op, r1) =>
              match parse_exprs n r1 with
              | ([], _) => none
              | (e :: es, r2) =>
                match r2 with
                | [] => none
                | c2 :: r3 =>
                  if c2 = ')' then some (expr_node op (e :: es), skip_space r3) else none
          else none := rfl

theorem parse_exprs_succ (n : Nat) (s : List Char) :
    parse_exprs (n + 1) s =
      match parse_expr n s with
      | none => ([], s)
      | some (e, rest) => (e :: (parse_exprs n rest).1, (parse_exprs n rest).2) := rfl

theorem parse_expr_zero (s : List Char) : parse_expr 0 s = none := rfl

theorem parse_exprs_zero (s : List Char) : parse_exprs 0 s = ([], s) := rfl

theorem parse_sound :
    ∀ n : Nat,
      (∀ s e rest, parse_expr n s = some (e, rest) → parsed_expr e)
        ∧ (∀ s, ∀ e ∈ (parse_exprs n s).1, parsed_expr e) := by
  intro n
  induction n with
  | zero =>
    constructor
    · intro s e rest hp
      simp [parse_expr_zero] at hp
    · intro s e he
      simp [parse_exprs_zero] at he
  | succ n ih =>
    obtain ⟨ih1, ih2⟩ := ih
    constructor
    · intro s e rest hp
      rw [parse_expr_succ] at hp
      cases hnum : parse_number s with
      | some p =>
        obtain ⟨text, r⟩ := p
        simp only [hnum, Option.some.injEq, Prod.mk.injEq] at hp
        rw [← hp.1]
        exact parsed_expr.number text (parse_number_numeral s text r hnum)
      | none =>
        simp only [hnum] at hp
        cases s with
        | nil => simp at hp
        | cons c r =>
          by_cases hc : c = '('
          · simp only [hc, if_true] at hp
            cases hop : parse_operator (skip_space r) with
            | none => simp [hop] at hp
            | some q =>
              obtain ⟨op, r1⟩ := q
              simp only [hop] at hp
              have hes := ih2 r1
              cases hex : parse_exprs n r1 with
              | mk es r2 =>
                rw [hex] at hes
                simp only [hex] at hp
                cases es with
                | nil => simp at hp
                | cons e1 es1 =>
                  cases r2 with
                  | nil => simp at hp
                  | cons c2 r3 =>
                    by_cases hc2 : c2 = ')'
                    · simp only [hc2, if_true, Option.some.injEq, Prod.mk.injEq] at hp
                      rw [← hp.1]
                      exact parsed_expr.paren op e1 es1
                        (parse_operator_token _ op r1 hop).1 (hes e1 (by simp))
                        (fun x hx => hes x (by simp [hx]))
                    · simp [hc2] at hp
          · simp [hc] at hp
    · intro s e he
      rw [parse_exprs_succ] at he
      cases hex : parse_expr n s with
      | none => simp [hex] at he
      | some p =>
        obtain ⟨e1, rest⟩ := p
        simp only [hex, List.mem_cons] at he
        rcases he with rfl | hin
        · exact ih1 s e rest hex
        · exact ih2 rest e hin

theorem parse_program_sound (fuel : Nat) (s : List Char) (t : mpc_ast_t)
    (hp : parse_program fuel s = some t) : parsed_program t := by
  unfold parse_program at hp
  cases hf : parse_form fuel s with
  | none => simp [hf] at hp
  | some p =>
    obtain ⟨t1, rest⟩ := p
    cases rest with
    | cons c r => simp [hf] at hp
    | nil =>
      simp only [hf, Option.some.injEq] at hp
      subst hp
      unfold parse_form at hf
      cases hop : parse_operator (skip_space s) with
      | none => simp [hop] at hf
      | some q =>
        obtain ⟨op, r1⟩ := q
        simp only [hop] at hf
        have hes := (parse_sound fuel).2 r1
        cases hex : parse_exprs fuel r1 with
        | mk es r2 =>
          rw [hex] at hes
          simp only [hex] at hf
          cases es with
          | nil => simp at hf
          | cons e1 es1 =>
            simp only [Option.some.injEq, Prod.mk.injEq] at hf
            rw [← hf.1]
            exact parsed_program.mk op e1 es1 (parse_operator_token _ op r1 hop).1
              (hes e1 (by simp)) (fun x hx => hes x (by simp [hx]))

/-! ## Parentheses of an accepted line -/

theorem paren_excess_append (a b : List Char) :
    paren_excess (a ++ b) = paren_excess a + paren_excess b := by
  unfold paren_excess
  rw [List.count_append, List.count_append]
  push_cast
  ring

theorem paren_excess_cons (c : Char) (r : List Char) :
    paren_excess (c :: r) = paren_excess [c] + paren_excess r :=
  paren_excess_append [c] r

theorem paren_excess_of_no_paren (a : List Char) (ha : ∀ c ∈ a, c ≠ '(' ∧ c ≠ ')') :
    paren_excess a = 0 := by
  unfold paren_excess
  rw [List.count_eq_zero_of_not_mem (fun hm => (ha _ hm).1 rfl),
    List.count_eq_zero_of_not_mem (fun hm => (ha _ hm).2 rfl)]
  simp

theorem paren_excess_dropWhile (p : Char → Bool)
    (hp : ∀ c, p c = true → c ≠ '(' ∧ c ≠ ')') (s : List Char) :
    paren_excess (s.dropWhile p) = paren_excess s := by
  have hsplit := List.takeWhile_append_dropWhile p s
  have hz : paren_excess (s.takeWhile p) = 0 :=
    paren_excess_of_no_paren _ (fun c hc => hp c (List.mem_takeWhile_imp hc))
  have := paren_excess_append (s.takeWhile p) (s.dropWhile p)
  rw [hsplit, hz] at this
  omega

theorem isspace_not_paren (c : Char) (hc : isspace c = true) : c ≠ '(' ∧ c ≠ ')' := by
  constructor <;> (rintro rfl; revert hc; decide)

theorem isdigit_not_paren (c : Char) (hc : isdigit c = true) : c ≠ '(' ∧ c ≠ ')' := by
  constructor <;> (rintro rfl; revert hc; decide)

theorem paren_excess_skip_space (s : List Char) :
    paren_excess (skip_space s) = paren_excess s :=
  paren_excess_dropWhile isspace isspace_not_paren s

theorem paren_excess_parse_number (s text rest : List Char)
    (hp : parse_number s = some (text, rest)) : paren_excess rest = paren_excess s := by
  cases s with
  | nil => simp [parse_number] at hp
  | cons c r =>
    by_cases hc : c = '-'
    · subst hc
      simp only [parse_number, if_true] at hp
      by_cases he : (List.takeWhile isdigit r).isEmpty = true
      · simp [he] at hp
      · simp only [he, Bool.false_eq_true, if_false, Option.some.injEq, Prod.mk.injEq] at hp
        rw [← hp.2, paren_excess_skip_space, paren_excess_dropWhile isdigit isdigit_not_paren,
          paren_excess_cons]
        have : paren_excess ['-'] = 0 := by decide
        omega
    · simp only [parse_number, hc, if_false] at hp
      by_cases he : (List.takeWhile isdigit (c :: r)).isEmpty = true
      · simp [he] at hp
      · simp only [he, Bool.false_eq_true, if_false, Option.some.injEq, Prod.mk.injEq] at hp
        rw [← hp.2, paren_excess_skip_space, paren_excess_dropWhile isdigit isdigit_not_paren]

theorem paren_excess_token : ∀ op ∈ operator_tokens, paren_excess op = 0 := by decide

theorem paren_excess_parse_operator (s op rest : List Char)
    (hp : parse_operator s = some (op, rest)) : paren_excess rest = paren_excess s := by
  obtain ⟨hmem, hpre, hrest⟩ := parse_operator_token s op rest hp
  have hsplit : op ++ s.drop op.length = s :=
    List.prefix_iff_eq_append.mp (List.isPrefixOf_iff_prefix.mp hpre)
  have := paren_excess_append op (s.drop op.length)
  rw [hsplit, paren_excess_token op hmem] at this
  rw [hrest, paren_excess_skip_space]
  omega

theorem paren_excess_parse :
    ∀ n : Nat,
      (∀ s e rest, parse_expr n s = some (e, rest) → paren_excess rest = paren_excess s)
        ∧ (∀ s, paren_excess (parse_exprs n s).2 = paren_excess s) := by
  intro n
  induction n with
  | zero =>
    constructor
    · intro s e rest hp
      simp [parse_expr_zero] at hp
    · intro s
      simp [parse_exprs_zero]
  | succ n ih =>
    obtain ⟨ih1, ih2⟩ := ih
    constructor
    · intro s e rest hp
      rw [parse_expr_succ] at hp
      cases hnum : parse_number s with
      | some p =>
        obtain ⟨text, r⟩ := p
        simp only [hnum, Option.some.injEq, Prod.mk.injEq] at hp
        rw [← hp.2]
        exact paren_excess_parse_number s text r hnum
      | none =>
        simp only [hnum] at hp
        cases s with
        | nil => simp at hp
        | cons c r =>
          by_cases hc : c = '('
          · simp only [hc, if_true] at hp
            cases hop : parse_operator (skip_space r) with
            | none => simp [hop] at hp
            | some q =>
              obtain ⟨op, r1⟩ := q
              simp only [hop] at hp
              have hes := ih2 r1
              cases hex : parse_exprs n r1 with
              | mk es r2 =>
                rw [hex] at hes
                simp only [hex] at hp
                cases es with
                | nil => simp at hp
                | cons e1 es1 =>
                  cases r2 with
                  | nil => simp at hp
                  | cons c2 r3 =>
                    by_cases hc2 : c2 = ')'
                    · simp only [hc2, if_true, Option.some.injEq, Prod.mk.injEq] at hp
                      have k1 := paren_excess_parse_operator _ op r1 hop
                      rw [paren_excess_skip_space] at k1
                      have k2 := paren_excess_cons c r
                      have k3 := paren_excess_cons c2 r3
                      have k4 : paren_excess ['('] = 1 := by decide
                      have k5 : paren_excess [')'] = -1 := by decide
                      rw [hc, k4] at k2
                      rw [hc2, k5] at k3
                      rw [← hp.2, paren_excess_skip_space, hc]
                      simp only at hes
                      rw [hc2] at hes
                      omega
                    · simp [hc2] at hp
          · simp [hc] at hp
    · intro s
      rw [parse_exprs_succ]
      cases hex : parse_expr n s with
      | none => rfl
      | some p =>
        obtain ⟨e1, rest⟩ := p
        simp only
        rw [ih2 rest]
        exact ih1 s e1 rest hex

theorem paren_excess_parse_form (fuel : Nat) (s : List Char) (t : mpc_ast_t)
    (rest : List Char) (hf : parse_form fuel s = some (t, rest)) :
    paren_excess rest = paren_excess s := by
  unfold parse_form at hf
  cases hop : parse_operator (skip_space s) with
  | none => simp [hop] at hf
  | some q =>
    obtain ⟨op, r1⟩ := q
    simp only [hop] at hf
    have hes := (paren_excess_parse fuel).2 r1
    have k1 := paren_excess_parse_operator _ op r1 hop
    rw [paren_excess_skip_space] at k1
    cases hex : parse_exprs fuel r1 with
    | mk es r2 =>
      rw [hex] at hes
      simp only [hex] at hf
      cases es with
      | nil => simp at hf
      | cons e1 es1 =>
        simp only [Option.some.injEq, Prod.mk.injEq] at hf
        rw [← hf.2]
        simp only at hes
        omega

theorem parse_program_balanced (fuel : Nat) (s : List Char) (t : mpc_ast_t)
    (hp : parse_program fuel s = some t) : s.count '(' = s.count ')' := by
  unfold parse_program at hp
  cases hf : parse_form fuel s with
  | none => simp [hf] at hp
  | some p =>
    obtain ⟨t1, rest⟩ := p
    cases rest with
    | cons c r => simp [hf] at hp
    | nil =>
      have := paren_excess_parse_form fuel s t1 [] hf
      unfold paren_excess at this
      simp only [List.count_nil, Nat.cast_zero, sub_self] at this
      omega

/-! ## The depth the parser needs -/

theorem length_dropWhile_le (p : Char → Bool) (s : List Char) :
    (s.dropWhile p).length ≤ s.length :=
  (List.dropWhile_sublist p).length_le

theorem parse_number_length (s text rest : List Char)
    (hp : parse_number s = some (text, rest)) : rest.length < s.length := by
  cases s with
  | nil => simp [parse_number] at hp
  | cons c r =>
    by_cases hc : c = '-'
    · subst hc
      simp only [parse_number, if_true] at hp
      by_cases he : (List.takeWhile isdigit r).isEmpty = true
      · simp [he] at hp
      · simp only [he, Bool.false_eq_true, if_false, Option.some.injEq, Prod.mk.injEq] at hp
        rw [← hp.2]
        have k1 := length_dropWhile_le isspace (List.dropWhile isdigit r)
        have k2 := length_dropWhile_le isdigit r
        simp only [skip_space, List.length_cons]
        omega
    · simp only [parse_number, hc, if_false] at hp
      by_cases he : (List.takeWhile isdigit (c :: r)).isEmpty = true
      · simp [he] at hp
      · simp only [he, Bool.false_eq_true, if_false, Option.some.injEq, Prod.mk.injEq] at hp
        have hd : isdigit c = true := by
          by_contra hnd
          simp [List.takeWhile_cons, hnd] at he
        rw [← hp.2, List.dropWhile_cons_of_pos hd]
        have k1 := length_dropWhile_le isspace (List.dropWhile isdigit r)
        have k2 := length_dropWhile_le isdigit r
        simp only [skip_space, List.length_cons]
        omega

theorem operator_token_length : ∀ op ∈ operator_tokens, 1 ≤ op.length := by decide

theorem parse_operator_length (s op rest : List Char)
    (hp : parse_operator s = some (op, rest)) : rest.length < s.length := by
  obtain ⟨hmem, hpre, hrest⟩ := parse_operator_token s op rest hp
  have hlen := (List.isPrefixOf_iff_prefix.mp hpre).length_le
  have h1 := operator_token_length op hmem
  have k1 := length_dropWhile_le isspace (s.drop op.length)
  rw [hrest]
  simp only [skip_space]
  rw [List.length_drop] at k1
  omega

theorem parse_length :
    ∀ n : Nat,
      (∀ s e rest, parse_expr n s = some (e, rest) → rest.length < s.length)
        ∧ (∀ s, (parse_exprs n s).2.length ≤ s.length) := by
  intro n
  induction n with
  | zero =>
    constructor
    · intro s e rest hp
      simp [parse_expr_zero] at hp
    · intro s
      simp [parse_exprs_zero]
  | succ n ih =>
    obtain ⟨ih1, ih2⟩ := ih
    constructor
    · intro s e rest hp
      rw [parse_expr_succ] at hp
      cases hnum : parse_number s with
      | some p =>
        obtain ⟨text, r⟩ := p
        simp only [hnum, Option.some.injEq, Prod.mk.injEq] at hp
        rw [← hp.2]
        exact parse_number_length s text r hnum
      | none =>
        simp only [hnum] at hp
        cases s with
        | nil => simp at hp
        | cons c r =>
          by_cases hc : c = '('
          · simp only [hc, if_true] at hp
            cases hop : parse_operator (skip_space r) with
            | none => simp [hop] at hp
            | some q =>
              obtain ⟨op, r1⟩ := q
              simp only [hop] at hp
              have hes := ih2 r1
              cases hex : parse_exprs n r1 with
              | mk es r2 =>
                rw [hex] at hes
                simp only [hex] at hp
                cases es with
                | nil => simp at hp
                | cons e1 es1 =>
                  cases r2 with
                  | nil => simp at hp
                  | cons c2 r3 =>
                    by_cases hc2 : c2 = ')'
                    · simp only [hc2, if_true, Option.some.injEq, Prod.mk.injEq] at hp
                      have k1 := parse_operator_length _ op r1 hop
                      have k2 := length_dropWhile_le isspace r
                      have k3 := length_dropWhile_le isspace r3
                      rw [← hp.2]
                      simp only [skip_space, List.length_cons] at k1 hes ⊢
                      omega
                    · simp [hc2] at hp
          · simp [hc] at hp
    · intro s
      rw [parse_exprs_succ]
      cases hex : parse_expr n s with
      | none => simp
      | some p =>
        obtain ⟨e1, rest⟩ := p
        simp only
        have k1 := ih1 s e1 rest hex
        have k2 := ih2 rest
        omega

theorem parse_expr_nil (m : Nat) : parse_expr m [] = none := by
  cases m <;> rfl

theorem parse_fuel_enough :
    ∀ n : Nat,
      (∀ s m, s.length ≤ n + 1 → n ≤ m → parse_expr (m + 1) s = parse_expr (n + 1) s)
        ∧ (∀ s m, s.length ≤ n → n ≤ m → parse_exprs (m + 1) s = parse_exprs (n + 1) s) := by
  have hexpr : ∀ (n : Nat),
      (∀ r1 m, r1.length + 1 ≤ n → n ≤ m → parse_exprs m r1 = parse_exprs n r1) →
      ∀ s m, s.length ≤ n + 1 → n ≤ m → parse_expr (m + 1) s = parse_expr (n + 1) s := by
    intro n hB s m hs hm
    rw [parse_expr_succ, parse_expr_succ]
    cases hnum : parse_number s with
    | some p => rfl
    | none =>
      cases s with
      | nil => rfl
      | cons c r =>
        by_cases hc : c = '('
        · simp only [hc, if_true]
          cases hop : parse_operator (skip_space r) with
          | none => rfl
          | some q =>
            obtain ⟨op, r1⟩ := q
            have k1 := parse_operator_length _ op r1 hop
            have k2 := length_dropWhile_le isspace r
            simp only [skip_space, List.length_cons] at k1 hs
            have hEq : parse_exprs m r1 = parse_exprs n r1 := hB r1 m (by omega) (by omega)
            simp only [hEq]
        · simp [hc]
  intro n
  induction n with
  | zero =>
    constructor
    · apply hexpr 0
      intro r1 m h1 _
      omega
    · intro s m hs _
      have hnil : s = [] := List.eq_nil_of_length_eq_zero (by omega)
      subst hnil
      rw [parse_exprs_succ, parse_exprs_succ, parse_expr_nil, parse_expr_nil]
  | succ n ih =>
    obtain ⟨ihA, ihB⟩ := ih
    have hB1 : ∀ r1 m, r1.length + 1 ≤ n + 1 → n + 1 ≤ m →
        parse_exprs m r1 = parse_exprs (n + 1) r1 := by
      intro r1 m h1 h2
      obtain ⟨m1, rfl⟩ : ∃ m1, m = m1 + 1 := ⟨m - 1, by omega⟩
      exact ihB r1 m1 (by omega) (by omega)
    constructor
    · exact hexpr (n + 1) hB1
    · intro s m hs hm
      obtain ⟨m1, rfl⟩ : ∃ m1, m = m1 + 1 := ⟨m - 1, by omega⟩
      rw [parse_exprs_succ, parse_exprs_succ, ihA s m1 hs (by omega)]
      cases hex : parse_expr (n + 1) s with
      | none => rfl
      | some p =>
        obtain ⟨e1, rest⟩ := p
        have k1 := (parse_length (n + 1)).1 s e1 rest hex
        simp only
        rw [ihB rest m1 (by omega) (by omega)]

theorem parse_program_fuel (s : List Char) (m : Nat) (hm : s.length + 1 ≤ m) :
    parse_program m s = mpc_parse s := by
  have key : ∀ k, s.length + 1 ≤ k → parse_form k s = parse_form (s.length + 1) s := by
    intro k hk
    obtain ⟨k1, rfl⟩ : ∃ k1, k = k1 + 1 := ⟨k - 1, by omega⟩
    unfold parse_form
    cases hop : parse_operator (skip_space s) with
    | none => rfl
    | some q =>
      obtain ⟨op, r1⟩ := q
      have h1 := parse_operator_length _ op r1 hop
      have h2 := length_dropWhile_le isspace s
      simp only [skip_space] at h1
      simp only
      rw [(parse_fuel_enough s.length).2 r1 k1 (by omega) (by omega)]
  unfold mpc_parse parse_program
  rw [key m hm, key (2 * s.length + 2) (by omega)]

/-! ## Outcomes on the trees of the parser -/

theorem foldl_invariant (h : Host) (op : List Char) (Q : Outcome → Prop)
    (hstep : ∀ x y, Q x → Q y → Q (eval_op_outcomes h op x y)) :
    ∀ (ys : List Outcome) (init : Outcome), Q init → (∀ y ∈ ys, Q y) →
      Q (ys.foldl (eval_op_outcomes h op) init) := by
  intro ys
  induction ys with
  | nil => intro init hi _; exact hi
  | cons y ys ih =>
    intro init hi hys
    exact ih _ (hstep init y hi (hys y (by simp))) (fun z hz => hys z (by simp [hz]))

theorem eval_shape_invariant (h : Host) (Q : Outcome → Prop) (tag : List Char)
    (c0 cl e : mpc_ast_t) (op : List Char) (es : List mpc_ast_t)
    (hstep : ∀ x y, Q x → Q y → Q (eval_op_outcomes h op x y))
    (htag : strstr tag "number".data = false)
    (hcl : strstr cl.tag "expr".data = false)
    (htags : ∀ x ∈ es, strstr x.tag "expr".data = true)
    (he : Q (eval h e)) (hes : ∀ x ∈ es, Q (eval h x)) :
    Q (eval h (.mk tag [] (c0 :: operator_node op :: ((e :: es) ++ [cl])))) := by
  have hfold := eval_node_fold h tag [] c0 (operator_node op) e cl es [] htag htags hcl
  have hc : (operator_node op).contents = op := rfl
  rw [hc] at hfold
  have hshape : (c0 :: operator_node op :: ((e :: es) ++ [cl]))
      = (c0 :: operator_node op :: e :: (es ++ cl :: [])) := rfl
  rw [hshape, hfold]
  apply foldl_invariant h op Q hstep _ _ he
  intro y hy
  obtain ⟨x, hx, rfl⟩ := List.mem_map.mp hy
  exact hes x hx

theorem eval_parsed_expr_invariant (h : Host) (Q : Outcome → Prop)
    (hleaf : ∀ text, is_numeral text = true → Q (eval h (number_node text)))
    (hstep : ∀ op ∈ operator_tokens, ∀ x y, Q x → Q y → Q (eval_op_outcomes h op x y)) :
    ∀ e, parsed_expr e → Q (eval h e) := by
  intro e he
  induction he with
  | number text hnum => exact hleaf text hnum
  | paren op e1 es hop he1 hes ih1 ih2 =>
    exact eval_shape_invariant h Q "expr|>".data (char_node "(".data) (char_node ")".data)
      e1 op es (hstep op hop) (by decide) (by decide)
      (fun x hx => parsed_expr_tag x (hes x hx)) ih1 ih2

theorem eval_parsed_program_invariant (h : Host) (Q : Outcome → Prop)
    (hleaf : ∀ text, is_numeral text = true → Q (eval h (number_node text)))
    (hstep : ∀ op ∈ operator_tokens, ∀ x y, Q x → Q y → Q (eval_op_outcomes h op x y)) :
    ∀ t, parsed_program t → Q (eval h t) := by
  intro t ht
  cases ht with
  | mk op e es hop he hes =>
    exact eval_shape_invariant h Q ">".data regex_node regex_node e op es (hstep op hop)
      (by decide) (by decide) (fun x hx => parsed_expr_tag x (hes x hx))
      (eval_parsed_expr_invariant h Q hleaf hstep e he)
      (fun x hx => eval_parsed_expr_invariant h Q hleaf hstep x (hes x hx))

theorem eval_number_node_cases (h : Host) (text : List Char) (hnum : is_numeral text = true) :
    (∃ n, eval h (number_node text) = .ok (lval_num n))
      ∨ eval h (number_node text) = .ok (lval_err .LERR_BAD_NUM) := by
  unfold number_node
  rw [eval_number h _ _ _ (by decide) hnum]
  by_cases hin : in_range h (text_value text)
  · exact Or.inl ⟨_, by rw [if_pos hin]⟩
  · exact Or.inr (by rw [if_neg hin])

theorem eval_op_token_cases (h : Host) (a b : Int) (op : List Char)
    (hop : op ∈ operator_tokens) :
    (∃ n, eval_op h (lval_num a) op (lval_num b) = .ok (lval_num n))
      ∨ eval_op h (lval_num a) op (lval_num b) = .ok (lval_err .LERR_DIV_ZERO)
      ∨ eval_op h (lval_num a) op (lval_num b) = .fault .arith := by
  simp only [operator_tokens, List.mem_cons, List.mem_singleton, List.not_mem_nil,
    or_false] at hop
  rcases hop with rfl | rfl | rfl | rfl | rfl | rfl | rfl | rfl
  · exact Or.inl ⟨wrap_long h (a + b), by simp [eval_op]⟩
  · exact Or.inl ⟨wrap_long h (a - b), by simp [eval_op]⟩
  · exact Or.inl ⟨wrap_long h (a * b), by simp [eval_op]⟩
  · by_cases hz : b = 0
    · exact Or.inr (Or.inl (by simp [eval_op, hz]))
    · cases hq : long_div h a b with
      | none => exact Or.inr (Or.inr (by simp [eval_op, hz, hq]))
      | some q => exact Or.inl ⟨q, by simp [eval_op, hz, hq]⟩
  · exact Or.inl ⟨wrap_long h (h.pow_long a b), by simp [eval_op]⟩
  · cases hq : long_rem h a b with
    | none => exact Or.inr (Or.inr (by simp [eval_op, hq]))
    | some q => exact Or.inl ⟨q, by simp [eval_op, hq]⟩
  · exact Or.inl ⟨if a < b then a else b, by simp [eval_op]⟩
  · exact Or.inl ⟨if a > b then a else b, by simp [eval_op]⟩

theorem eval_op_outcomes_not_bad_op (h : Host) (op : List Char) (hop : op ∈ operator_tokens)
    (x y : Outcome) (hx : x ≠ .ok (lval_err .LERR_BAD_OP))
    (hy : y ≠ .ok (lval_err .LERR_BAD_OP)) :
    eval_op_outcomes h op x y ≠ .ok (lval_err .LERR_BAD_OP) := by
  cases x with
  | fault f => simp [eval_op_outcomes]
  | ok a =>
    cases y with
    | fault f => simp [eval_op_outcomes]
    | ok b =>
      cases a with
      | err e =>
        have : eval_op_outcomes h op (.ok (.err e)) (.ok b) = .ok (.err e) := by
          cases b <;> rfl
        rw [this]; exact hx
      | num a =>
        cases b with
        | err e =>
          have : eval_op_outcomes h op (.ok (.num a)) (.ok (.err e)) = .ok (.err e) := rfl
          rw [this]; exact hy
        | num b =>
          have : eval_op_outcomes h op (.ok (.num a)) (.ok (.num b))
              = eval_op h (lval_num a) op (lval_num b) := rfl
          rw [this]
          rcases eval_op_token_cases h a b op hop with ⟨n, hn⟩ | hn | hn <;> rw [hn] <;> simp

theorem eval_op_outcomes_in_bounds (h : Host) (op : List Char) (hop : op ∈ operator_tokens)
    (x y : Outcome) (hx : x ≠ .fault .out_of_bounds) (hy : y ≠ .fault .out_of_bounds) :
    eval_op_outcomes h op x y ≠ .fault .out_of_bounds := by
  cases x with
  | fault f => simpa [eval_op_outcomes] using hx
  | ok a =>
    cases y with
    | fault f => simpa [eval_op_outcomes] using hy
    | ok b =>
      cases a with
      | err e =>
        have : eval_op_outcomes h op (.ok (.err e)) (.ok b) = .ok (.err e) := by
          cases b <;> rfl
        rw [this]; simp
      | num a =>
        cases b with
        | err e =>
          have : eval_op_outcomes h op (.ok (.num a)) (.ok (.err e)) = .ok (.err e) := rfl
          rw [this]; simp
        | num b =>
          have : eval_op_outcomes h op (.ok (.num a)) (.ok (.num b))
              = eval_op h (lval_num a) op (lval_num b) := rfl
          rw [this]
          rcases eval_op_token_cases h a b op hop with ⟨n, hn⟩ | hn | hn <;> rw [hn] <;> simp

theorem eval_number_node_not_bad_op (h : Host) (text : List Char)
    (hnum : is_numeral text = true) :
    eval h (number_node text) ≠ .ok (lval_err .LERR_BAD_OP) := by
  rcases eval_number_node_cases h text hnum with ⟨n, hn⟩ | hn <;> rw [hn] <;> simp

theorem eval_number_node_in_bounds (h : Host) (text : List Char)
    (hnum : is_numeral text = true) :
    eval h (number_node text) ≠ .fault .out_of_bounds := by
  rcases eval_number_node_cases h text hnum with ⟨n, hn⟩ | hn <;> rw [hn] <;> simp

/-! ## The sub-expressions of the trees of the parser -/

theorem operands_of_shape (tag : List Char) (c0 c1 cl e : mpc_ast_t) (es : List mpc_ast_t)
    (htag : strstr tag "number".data = false)
    (hcl : strstr cl.tag "expr".data = false) :
    ∀ c ∈ operands (.mk tag [] (c0 :: c1 :: ((e :: es) ++ [cl]))), c ∈ e :: es := by
  intro c hc
  simp only [operands, htag, Bool.false_eq_true, if_false, List.cons_append,
    List.mem_cons] at hc
  rcases hc with rfl | hin
  · simp
  · have hp := List.mem_takeWhile_imp hin
    have hmem := (List.takeWhile_sublist _).subset hin
    simp only [List.mem_append, List.mem_singleton] at hmem
    rcases hmem with h1 | rfl
    · simp [h1]
    · simp only at hp
      rw [hcl] at hp
      cases hp

theorem sub_expression_parsed (t s : mpc_ast_t) (hs : sub_expression t s) :
    parsed_program t ∨ parsed_expr t → parsed_program s ∨ parsed_expr s := by
  induction hs with
  | refl t => exact id
  | step t c s hc _ ih =>
    intro ht
    apply ih
    right
    rcases ht with ht | ht
    · cases ht with
      | mk op e es hop he hes =>
        have := operands_of_shape ">".data regex_node (operator_node op) regex_node e es
          (by decide) (by decide) c hc
        rcases List.mem_cons.mp this with rfl | hin
        · exact he
        · exact hes c hin
    · cases ht with
      | number text hnum =>
        have hops : operands (number_node text) = [] := by
          simp [operands, number_node, (by decide :
            strstr "expr|number|regex".data "number".data = true)]
        rw [hops] at hc
        simp at hc
      | paren op e es hop he hes =>
        have := operands_of_shape "expr|>".data (char_node "(".data) (operator_node op)
          (char_node ")".data) e es (by decide) (by decide) c hc
        rcases List.mem_cons.mp this with rfl | hin
        · exact he
        · exact hes c hin

/-! ## The power branch of `eval_op` -/

theorem eval_op_pow (h : Host) (a b : Int) :
    eval_op h (lval_num a) "^".data (lval_num b)
      = .ok (lval_num (wrap_long h (h.pow_long a b))) := by
  simp [eval_op]

theorem eval_op_pow_in_range (h : Host) (hb : 0 < h.long_bits) (a b z : Int)
    (hz : ¬ in_range h z) :
    eval_op h (lval_num a) "^".data (lval_num b) ≠ .ok (lval_num z) := by
  rw [eval_op_pow]
  intro heq
  simp only [Outcome.ok.injEq, lval.num.injEq] at heq
  exact hz (heq ▸ in_range_wrap_long h hb _)

theorem not_in_range_64 (p : Int → Int → Int) (z : Int) (hz : 9223372036854775807 < z) :
    ¬ in_range ⟨64, p⟩ z := by
  unfold in_range LONG_MAX LONG_MIN
  simp only
  norm_num
  intro _
  omega

theorem host64_exact_pow : host64_exact.pow_exact ∧ host64_exact.pow_truncates := by
  constructor
  · intro a b hb _ _
    show real_pow_trunc a b = a ^ b.toNat
    simp [real_pow_trunc, hb]
  · intro a b hb ha
    show real_pow_trunc a b = 0
    have h0 : ¬ (0 ≤ b) := by omega
    have h1 : a ≠ 1 := by
      rintro rfl
      simp at ha
    have h2 : a ≠ -1 := by
      rintro rfl
      simp at ha
    simp [real_pow_trunc, h0, h1, h2]

/-! ## Claims -/

/-- C1: for a node whose tag is not that of a number, with children `c0`, the operator `c1`,
a first operand `e1`, further operands `rest` (each tagged `expr`) and a next child `cl` that
is not tagged `expr`, `eval` returns the left fold of `eval_op` with the operator's text over
the outcomes of evaluating the operands in order, starting from the outcome of `e1`; and on
every host whose `long` has at least 32 bits the program `- 1 2 3` evaluates to the number
`-4`, which is `(1 - 2) - 3`. -/
theorem eval_is_left_fold (h : Host) (tag contents : List Char) (c0 c1 e1 cl : mpc_ast_t)
    (rest tail : List mpc_ast_t)
    (htag : strstr tag "number".data = false)
    (hrest : ∀ e ∈ rest, strstr e.tag "expr".data = true)
    (hcl : strstr cl.tag "expr".data = false) :
    eval h (.mk tag contents (c0 :: c1 :: e1 :: (rest ++ cl :: tail))) =
        (rest.map (eval h)).foldl (eval_op_outcomes h c1.contents) (eval h e1)
      ∧ (32 ≤ h.long_bits → eval h prog_sub_1_2_3 = .ok (lval_num (-4))) := by
  refine ⟨eval_node_fold h tag contents c0 c1 e1 cl rest tail htag hrest hcl, ?_⟩
  intro hb
  have e1 := eval_small_number h hb "1".data (by decide) (by decide) (by decide)
  have e2 := eval_small_number h hb "2".data (by decide) (by decide) (by decide)
  have e3 := eval_small_number h hb "3".data (by decide) (by decide) (by decide)
  have v1 : text_value "1".data = 1 := by decide
  have v2 : text_value "2".data = 2 := by decide
  have v3 : text_value "3".data = 3 := by decide
  rw [v1] at e1
  rw [v2] at e2
  rw [v3] at e3
  have w1 : wrap_long h (-1) = -1 :=
    wrap_long_eq_self h (by omega) _ (in_range_of_small h hb _ (by norm_num) (by norm_num))
  have w2 : wrap_long h (-4) = -4 :=
    wrap_long_eq_self h (by omega) _ (in_range_of_small h hb _ (by norm_num) (by norm_num))
  refine (eval_node_fold h ">".data [] regex_node (operator_node "-".data)
    (number_node "1".data) regex_node [number_node "2".data, number_node "3".data] []
    (by decide) (by decide) (by decide)).trans ?_
  simp only [List.map_cons, List.map_nil, List.foldl_cons, List.foldl_nil, e1, e2, e3,
    eval_op_outcomes, eval_op, operator_node, mpc_ast_t.contents]
  simp [w1, w2]

/-- Witness of C1 on an LP64 host: the tree of `- 1 2 3`. -/
theorem eval_is_left_fold_witness :
    32 ≤ host64.long_bits ∧
      eval host64 prog_sub_1_2_3 =
        ([number_node "2".data, number_node "3".data].map (eval host64)).foldl
          (eval_op_outcomes host64 "-".data) (eval host64 (number_node "1".data)) ∧
      eval host64 prog_sub_1_2_3 = .ok (lval_num (-4)) :=
  have w := eval_is_left_fold host64 ">".data [] regex_node (operator_node "-".data)
    (number_node "1".data) regex_node [number_node "2".data, number_node "3".data] []
    (by decide) (by decide) (by decide)
  ⟨by decide, w.1, w.2 (by decide)⟩

/-- C2: for every number `x`, `eval_op(x, "/", 0)` returns the error `LERR_DIV_ZERO` and does
not reach the native division, which has no result for a zero divisor; and on every host
whose `long` has at least 32 bits the program `/ 5 0` evaluates to that error. -/
theorem div_by_zero_is_error (h : Host) (x : Int) :
    eval_op h (lval_num x) "/".data (lval_num 0) = .ok (lval_err .LERR_DIV_ZERO)
      ∧ long_div h x 0 = none
      ∧ (32 ≤ h.long_bits → eval h prog_div_5_0 = .ok (lval_err .LERR_DIV_ZERO)) := by
  refine ⟨by simp [eval_op], by simp [long_div], ?_⟩
  intro hb
  have e1 := eval_small_number h hb "5".data (by decide) (by decide) (by decide)
  have e2 := eval_small_number h hb "0".data (by decide) (by decide) (by decide)
  have v1 : text_value "5".data = 5 := by decide
  have v2 : text_value "0".data = 0 := by decide
  rw [v1] at e1
  rw [v2] at e2
  refine (eval_node_fold h ">".data [] regex_node (operator_node "/".data)
    (number_node "5".data) regex_node [number_node "0".data] []
    (by decide) (by decide) (by decide)).trans ?_
  simp [e1, e2, eval_op_outcomes, eval_op, operator_node, mpc_ast_t.contents]

/-- Witness of C2 on an LP64 host. -/
theorem div_by_zero_is_error_witness :
    32 ≤ host64.long_bits ∧ eval host64 prog_div_5_0 = .ok (lval_err .LERR_DIV_ZERO) :=
  ⟨by decide, (div_by_zero_is_error host64 5).2.2 (by decide)⟩

/-- C3: whatever the operator text, `eval_op` returns an error left operand unchanged,
whatever the right operand is (so the left of two errors is returned), and returns an error
right operand unchanged when the left operand is a number. -/
theorem error_operand_is_returned (h : Host) (op : List Char) (e : LErr) (y : lval)
    (a : Int) :
    eval_op h (lval_err e) op y = .ok (lval_err e)
      ∧ eval_op h (lval_num a) op (lval_err e) = .ok (lval_err e) := by
  constructor
  · cases y <;> rfl
  · rfl

/-- C4, as amended: for every tree whose evaluation returns a value `v`, if any
sub-expression evaluates to an error then `v` is an error, and the error `v` carries (none
when `v` is a number) is the one created by the first failing sub-evaluation in evaluation
order. -/
theorem error_dominates (h : Host) (t : mpc_ast_t) (v : lval) (hv : eval h t = .ok v) :
    (∀ s e, sub_expression t s → eval h s = .ok (lval_err e) → ∃ e1, v = lval_err e1)
      ∧ v.error = first_raised h t := by
  refine ⟨fun s e hs he => sub_expression_error h t s hs v hv e he, ?_⟩
  exact (first_raised_eq h t v hv).symm

/-- Counterexample to C4 as stated, on an LP64 host: in `+ (/ 1 0) (% 1 0)` the
sub-expression `(/ 1 0)` evaluates to an error, and the evaluation of the tree returns no
error: it stops at the remainder by zero of the second operand. -/
theorem error_dominance_stops_at_fault :
    sub_expression prog_add_div0_rem0 expr_div_1_0
      ∧ eval host64 expr_div_1_0 = .ok (lval_err .LERR_DIV_ZERO)
      ∧ eval host64 prog_add_div0_rem0 = .fault .arith
      ∧ ¬ ∃ e, eval host64 prog_add_div0_rem0 = .ok (lval_err e) := by
  refine ⟨?_, by decide, by decide, ?_⟩
  · refine sub_expression.step _ expr_div_1_0 _ ?_ (sub_expression.refl _)
    have hops : operands prog_add_div0_rem0 = [expr_div_1_0, expr_rem_1_0] := rfl
    rw [hops]
    exact List.mem_cons_self _ _
  · rintro ⟨e, he⟩
    have hf : eval host64 prog_add_div0_rem0 = .fault .arith := by decide
    rw [hf] at he
    cases he

/-- Witness of C4 on an LP64 host: in `+ (/ 1 0) 99999999999999999999` the division by zero
comes first and is the error returned. -/
theorem error_dominates_witness :
    eval host64 prog_add_div0_big = .ok (lval_err .LERR_DIV_ZERO)
      ∧ first_raised host64 prog_add_div0_big = some .LERR_DIV_ZERO :=
  ⟨by decide,
    ((error_dominates host64 prog_add_div0_big (lval_err .LERR_DIV_ZERO) (by decide)).2).symm⟩

/-- C5: a node whose tag contains `number` and whose text is matched by `-?[0-9]+`
evaluates to the number its text denotes when that is representable as a `long`, and to the
error `LERR_BAD_NUM` when it is above `LONG_MAX` or below `LONG_MIN`. -/
theorem number_leaf_value (h : Host) (tag contents : List Char) (children : List mpc_ast_t)
    (htag : strstr tag "number".data = true) (hs : is_numeral contents = true) :
    (in_range h (text_value contents) →
        eval h (.mk tag contents children) = .ok (lval_num (text_value contents)))
      ∧ (LONG_MAX h < text_value contents →
        eval h (.mk tag contents children) = .ok (lval_err .LERR_BAD_NUM))
      ∧ (text_value contents < LONG_MIN h →
        eval h (.mk tag contents children) = .ok (lval_err .LERR_BAD_NUM)) := by
  have key := eval_number h tag contents children htag hs
  refine ⟨fun hr => ?_, fun hr => ?_, fun hr => ?_⟩
  · rw [key, if_pos hr]
  · rw [key, if_neg (fun hin => absurd hin.2 (by omega))]
  · rw [key, if_neg (fun hin => absurd hin.1 (by omega))]

/-- Witness of C5 on an LP64 host: the least literal above `LONG_MAX`. -/
theorem number_leaf_value_witness :
    strstr "expr|number|regex".data "number".data = true
      ∧ is_numeral "9223372036854775808".data = true
      ∧ LONG_MAX host64 < text_value "9223372036854775808".data
      ∧ eval host64 (number_node "9223372036854775808".data)
          = .ok (lval_err .LERR_BAD_NUM) :=
  ⟨by decide, by decide, by decide,
    (number_leaf_value host64 "expr|number|regex".data "9223372036854775808".data []
      (by decide) (by decide)).2.1 (by decide)⟩

/-- C6: on a host whose `long` has at least one bit, replacing in a tree a sub-expression
tagged `expr` that evaluates to the number `n` by the number leaf whose text denotes `n`
leaves the outcome of `eval` on the tree unchanged; and on every host whose `long` has at
least 32 bits the programs `+ 1 (* 2 3)` and `+ 1 6` both evaluate to the number `7`. -/
theorem nesting_is_compositional (h : Host) (hb : 0 < h.long_bits)
    (sub t t1 : mpc_ast_t) (text : List Char) (n : Int)
    (hrep : replaced sub (number_node text) t t1)
    (hsub : strstr sub.tag "expr".data = true)
    (hn : eval h sub = .ok (lval_num n))
    (hnum : is_numeral text = true) (hval : text_value text = n) :
    eval h t1 = eval h t
      ∧ (32 ≤ h.long_bits →
          eval h prog_add_1_mul_2_3 = .ok (lval_num 7)
            ∧ eval h prog_add_1_6 = .ok (lval_num 7)) := by
  constructor
  · have hleaf : eval h (number_node text) = eval h sub := by
      unfold number_node
      rw [eval_number h _ _ _ (by decide) hnum, hval, hn,
        if_pos (eval_in_range h hb sub n hn)]
    have htag : strstr (number_node text).tag "expr".data = strstr sub.tag "expr".data := by
      rw [hsub]
      show strstr "expr|number|regex".data "expr".data = true
      decide
    exact (replaced_eval h sub (number_node text) t t1 hleaf htag hrep).1
  · intro hbits
    have hb1 : 0 < h.long_bits := by omega
    have e1 := eval_small_number h hbits "1".data (by decide) (by decide) (by decide)
    have e2 := eval_small_number h hbits "2".data (by decide) (by decide) (by decide)
    have e3 := eval_small_number h hbits "3".data (by decide) (by decide) (by decide)
    have e6 := eval_small_number h hbits "6".data (by decide) (by decide) (by decide)
    have v1 : text_value "1".data = 1 := by decide
    have v2 : text_value "2".data = 2 := by decide
    have v3 : text_value "3".data = 3 := by decide
    have v6 : text_value "6".data = 6 := by decide
    rw [v1] at e1
    rw [v2] at e2
    rw [v3] at e3
    rw [v6] at e6
    have w6 : wrap_long h 6 = 6 :=
      wrap_long_eq_self h hb1 _ (in_range_of_small h hbits _ (by norm_num) (by norm_num))
    have w7 : wrap_long h 7 = 7 :=
      wrap_long_eq_self h hb1 _ (in_range_of_small h hbits _ (by norm_num) (by norm_num))
    have emul : eval h (expr_node "*".data [number_node "2".data, number_node "3".data])
        = .ok (lval_num 6) := by
      refine (eval_node_fold h "expr|>".data [] (char_node "(".data) (operator_node "*".data)
        (number_node "2".data) (char_node ")".data) [number_node "3".data] []
        (by decide) (by decide) (by decide)).trans ?_
      simp only [List.map_cons, List.map_nil, List.foldl_cons, List.foldl_nil, e2, e3,
        eval_op_outcomes, eval_op, operator_node, mpc_ast_t.contents]
      simp [w6]
    constructor
    · refine (eval_node_fold h ">".data [] regex_node (operator_node "+".data)
        (number_node "1".data) regex_node
        [expr_node "*".data [number_node "2".data, number_node "3".data]] []
        (by decide) (by decide) (by decide)).trans ?_
      simp only [List.map_cons, List.map_nil, List.foldl_cons, List.foldl_nil, e1, emul,
        eval_op_outcomes, eval_op, operator_node, mpc_ast_t.contents]
      simp [w7]
    · refine (eval_node_fold h ">".data [] regex_node (operator_node "+".data)
        (number_node "1".data) regex_node [number_node "6".data] []
        (by decide) (by decide) (by decide)).trans ?_
      simp only [List.map_cons, List.map_nil, List.foldl_cons, List.foldl_nil, e1, e6,
        eval_op_outcomes, eval_op, operator_node, mpc_ast_t.contents]
      simp [w7]

/-- Witness of C6 on an LP64 host: `(* 2 3)` replaced by `6` in `+ 1 (* 2 3)`. -/
theorem nesting_is_compositional_witness :
    replaced (expr_node "*".data [number_node "2".data, number_node "3".data])
        (number_node "6".data) prog_add_1_mul_2_3 prog_add_1_6
      ∧ eval host64 (expr_node "*".data [number_node "2".data, number_node "3".data])
          = .ok (lval_num 6)
      ∧ eval host64 prog_add_1_6 = eval host64 prog_add_1_mul_2_3
      ∧ eval host64 prog_add_1_mul_2_3 = .ok (lval_num 7) :=
  have hrep : replaced (expr_node "*".data [number_node "2".data, number_node "3".data])
      (number_node "6".data) prog_add_1_mul_2_3 prog_add_1_6 :=
    replaced.child ">".data []
      [regex_node, operator_node "+".data, number_node "1".data] [regex_node]
      (expr_node "*".data [number_node "2".data, number_node "3".data])
      (number_node "6".data) (by decide) replaced.here
  have w := nesting_is_compositional host64 (by decide)
    (expr_node "*".data [number_node "2".data, number_node "3".data])
    prog_add_1_mul_2_3 prog_add_1_6 "6".data 6 hrep (by decide) (by decide) (by decide)
    (by decide)
  ⟨hrep, by decide, w.1, (w.2 (by decide)).1⟩

/-- C7, as amended: for every tree of a successful parse in which every number literal is
representable, no `/` or `%` is applied to a zero right operand, and no `/` or `%` is
applied to two numbers whose quotient is not representable (`LONG_MIN` by `-1`), `eval`
returns a number. -/
theorem valid_program_evaluates (h : Host) (t : mpc_ast_t) (ht : parsed_program t)
    (hlit : ∀ ev ∈ trace h t, ev.literal_in_range h)
    (hdiv : ∀ ev ∈ trace h t, ev.divisor_not_zero)
    (hquo : ∀ ev ∈ trace h t, ev.quotient_in_range h) :
    ∃ n, eval h t = .ok (lval_num n) := by
  have hsafe : ∀ ev ∈ trace h t, ev.safe h :=
    fun ev hmem => ⟨hlit ev hmem, hdiv ev hmem, hquo ev hmem⟩
  cases ht with
  | mk op e es hop he hes =>
    exact eval_node_total h ">".data [] regex_node regex_node e op es
      (by decide) hop (by decide) (fun x hx => parsed_expr_tag x (hes x hx))
      (eval_parsed_expr h e he) (fun x hx => eval_parsed_expr h x (hes x hx)) hsafe

/-- Counterexample to C7 as stated, on an LP64 host: the line `/ -9223372036854775808 -1`
parses, its two literals are representable and its divisor is not zero, and the evaluation
stops at the native division, whose quotient `2 ^ 63` is not representable. -/
theorem valid_program_faults :
    parsed_program prog_div_min_neg1
      ∧ (∀ ev ∈ trace host64 prog_div_min_neg1, ev.literal_in_range host64)
      ∧ (∀ ev ∈ trace host64 prog_div_min_neg1, ev.divisor_not_zero)
      ∧ trace host64 prog_div_min_neg1 =
          [Event.number "-9223372036854775808".data, Event.number "-1".data,
            Event.apply (lval_num (-9223372036854775808)) "/".data (lval_num (-1))]
      ∧ eval host64 prog_div_min_neg1 = .fault .arith
      ∧ ¬ ∃ n, eval host64 prog_div_min_neg1 = .ok (lval_num n) := by
  refine ⟨?_, by decide, by decide, by decide, by decide, ?_⟩
  · refine parsed_program.mk "/".data (number_node "-9223372036854775808".data)
      [number_node "-1".data] (by decide) (parsed_expr.number _ (by decide)) ?_
    intro x hx
    rcases List.mem_cons.mp hx with rfl | hx
    · exact parsed_expr.number _ (by decide)
    · simp at hx
  · rintro ⟨n, hn⟩
    have hf : eval host64 prog_div_min_neg1 = .fault .arith := by decide
    rw [hf] at hn
    cases hn

/-- Witness of C7 on an LP64 host: the line `- 1 2 3`. -/
theorem valid_program_evaluates_witness :
    parsed_program prog_sub_1_2_3
      ∧ (∀ ev ∈ trace host64 prog_sub_1_2_3, ev.literal_in_range host64)
      ∧ (∀ ev ∈ trace host64 prog_sub_1_2_3, ev.divisor_not_zero)
      ∧ (∀ ev ∈ trace host64 prog_sub_1_2_3, ev.quotient_in_range host64)
      ∧ ∃ n, eval host64 prog_sub_1_2_3 = .ok (lval_num n) :=
  have hp : parsed_program prog_sub_1_2_3 :=
    parsed_program.mk "-".data (number_node "1".data)
      [number_node "2".data, number_node "3".data] (by decide)
      (parsed_expr.number _ (by decide))
      (by
        intro x hx
        rcases List.mem_cons.mp hx with rfl | hx
        · exact parsed_expr.number _ (by decide)
        · rcases List.mem_cons.mp hx with rfl | hx
          · exact parsed_expr.number _ (by decide)
          · simp at hx)
  ⟨hp, by decide, by decide, by decide,
    valid_program_evaluates host64 prog_sub_1_2_3 hp (by decide) (by decide) (by decide)⟩

/-- C8, as amended: `eval` has no early exit.  In a node with first operand `e1` and further
operands, (1) an error from `e1` is the result of the node with that one operand, and (2) an
error from a later operand `e` is the result when the fold of the operands before `e` is a
number; (3) once the result of the operands `e1, pre` is an error, the operands `post` to
their right are still evaluated, and the result stays that error provided each of their
evaluations returns a value, while (4) the first of them that faults makes the whole
evaluation stop at that fault. -/
theorem error_outlives_later_operands (h : Host) (tag contents : List Char)
    (c0 c1 e1 cl : mpc_ast_t) (pre post tail : List mpc_ast_t) (k : LErr)
    (htag : strstr tag "number".data = false)
    (hpre : ∀ e ∈ pre, strstr e.tag "expr".data = true)
    (hpost : ∀ e ∈ post, strstr e.tag "expr".data = true)
    (hcl : strstr cl.tag "expr".data = false) :
    (eval h e1 = .ok (lval_err k) →
        eval h (.mk tag contents (c0 :: c1 :: e1 :: cl :: tail)) = .ok (lval_err k))
      ∧ (∀ (e : mpc_ast_t) (a : Int), strstr e.tag "expr".data = true →
          eval h (.mk tag contents (c0 :: c1 :: e1 :: (pre ++ cl :: tail)))
            = .ok (lval_num a) →
          eval h e = .ok (lval_err k) →
          eval h (.mk tag contents (c0 :: c1 :: e1 :: ((pre ++ [e]) ++ cl :: tail)))
            = .ok (lval_err k))
      ∧ (eval h (.mk tag contents (c0 :: c1 :: e1 :: (pre ++ cl :: tail)))
            = .ok (lval_err k) →
          (∀ e ∈ post, ∃ v, eval h e = .ok v) →
          eval h (.mk tag contents (c0 :: c1 :: e1 :: ((pre ++ post) ++ cl :: tail)))
            = .ok (lval_err k))
      ∧ (eval h (.mk tag contents (c0 :: c1 :: e1 :: (pre ++ cl :: tail)))
            = .ok (lval_err k) →
          ∀ (p1 p2 : List mpc_ast_t) (s : mpc_ast_t) (f : Fault), post = p1 ++ s :: p2 →
          (∀ e ∈ p1, ∃ v, eval h e = .ok v) → eval h s = .fault f →
          eval h (.mk tag contents (c0 :: c1 :: e1 :: ((pre ++ post) ++ cl :: tail)))
            = .fault f) := by
  have hboth : ∀ e ∈ pre ++ post, strstr e.tag "expr".data = true := by
    intro e he
    rcases List.mem_append.mp he with h1 | h1
    · exact hpre e h1
    · exact hpost e h1
  have fpre := eval_node_fold h tag contents c0 c1 e1 cl pre tail htag hpre hcl
  have fall := eval_node_fold h tag contents c0 c1 e1 cl (pre ++ post) tail htag hboth hcl
  rw [List.map_append, List.foldl_append, ← fpre] at fall
  refine ⟨?_, ?_, ?_, ?_⟩
  · intro he1
    have hone := eval_node_fold h tag contents c0 c1 e1 cl [] tail htag (by simp) hcl
    simpa [he1] using hone
  · intro e a he hacc herr
    have hpe : ∀ x ∈ pre ++ [e], strstr x.tag "expr".data = true := by
      intro x hx
      rcases List.mem_append.mp hx with h1 | h1
      · exact hpre x h1
      · simp at h1
        subst h1
        exact he
    rw [eval_node_fold h tag contents c0 c1 e1 cl (pre ++ [e]) tail htag hpe hcl,
      List.map_append, List.foldl_append, ← fpre, hacc]
    simp [herr, eval_op_outcomes, eval_op]
  · intro hacc hok
    rw [fall, hacc]
    apply foldl_error_absorbs
    intro y hy
    obtain ⟨e, he, rfl⟩ := List.mem_map.mp hy
    exact hok e he
  · intro hacc p1 p2 s f hsplit hok hs
    rw [fall, hacc, hsplit, List.map_append, List.map_cons, hs]
    apply foldl_error_then_fault
    intro y hy
    obtain ⟨e, he, rfl⟩ := List.mem_map.mp hy
    exact hok e he

/-- Counterexample to C8 as stated, on an LP64 host: in `+ 99999999999999999999 (% 1 0)` the
first operand evaluates to the error `LERR_BAD_NUM`, the operand to its right is evaluated all
the same, and its remainder by zero stops the evaluation: the result is not that error. -/
theorem later_operand_is_evaluated :
    eval host64 (number_node "99999999999999999999".data) = .ok (lval_err .LERR_BAD_NUM)
      ∧ eval host64 expr_rem_1_0 = .fault .arith
      ∧ eval host64 prog_add_big_rem0 = .fault .arith
      ∧ eval host64 prog_add_big_rem0 ≠ .ok (lval_err .LERR_BAD_NUM)
      ∧ Event.apply (lval_num 1) "%".data (lval_num 0) ∈ trace host64 prog_add_big_rem0 := by
  refine ⟨by decide, by decide, by decide, by decide, by decide⟩

/-- Witness of C8 on an LP64 host: in `+ 99999999999999999999 1 2` the first operand is out
of range and the two later operands are evaluated without changing the result. -/
theorem error_outlives_later_operands_witness :
    eval host64 (number_node "99999999999999999999".data) = .ok (lval_err .LERR_BAD_NUM)
      ∧ eval host64 prog_add_big_1_2 = .ok (lval_err .LERR_BAD_NUM) :=
  ⟨by decide,
    (error_outlives_later_operands host64 ">".data [] regex_node (operator_node "+".data)
      (number_node "99999999999999999999".data) regex_node []
      [number_node "1".data, number_node "2".data] [] .LERR_BAD_NUM
      (by decide) (by decide) (by decide) (by decide)).2.2.1 (by decide)
      (by
        intro e he
        rcases List.mem_cons.mp he with rfl | he
        · exact ⟨lval_num 1, by decide⟩
        · rcases List.mem_cons.mp he with rfl | he
          · exact ⟨lval_num 2, by decide⟩
          · simp at he)⟩

/-- C9: for numbers `x` and `y` with `y` not zero and the quotient representable,
`eval_op` with `/` returns the quotient `q` truncated toward zero (the sign of `x` times the
sign of `y` times the quotient of the absolute values) and with `%` returns
`r = x - q * y`, which is not negative when `x` is not, not positive when `x` is not, and
smaller than `y` in absolute value; and on every host whose `long` has at least 32 bits the
programs `/ -7 2` and `% -7 2` evaluate to `-3` and `-1`. -/
theorem div_rem_truncate (h : Host) (x y : Int) (hy : y ≠ 0)
    (hq : in_range h (Int.tdiv x y)) :
    eval_op h (lval_num x) "/".data (lval_num y) = .ok (lval_num (Int.tdiv x y))
      ∧ eval_op h (lval_num x) "%".data (lval_num y)
          = .ok (lval_num (x - Int.tdiv x y * y))
      ∧ Int.tdiv x y = Int.sign x * Int.sign y * ((x.natAbs / y.natAbs : Nat) : Int)
      ∧ (0 ≤ x → 0 ≤ x - Int.tdiv x y * y)
      ∧ (x ≤ 0 → x - Int.tdiv x y * y ≤ 0)
      ∧ |x - Int.tdiv x y * y| < |y|
      ∧ (32 ≤ h.long_bits →
          eval h prog_div_neg7_2 = .ok (lval_num (-3))
            ∧ eval h prog_rem_neg7_2 = .ok (lval_num (-1))) := by
  have hr : x - Int.tdiv x y * y = Int.tmod x y := by
    rw [Int.tmod_def]; ring
  have hb := tmod_sign_bound x y hy
  refine ⟨?_, ?_, tdiv_trunc x y, ?_, ?_, ?_, ?_⟩
  · exact eval_op_div h x y hy hq
  · rw [hr]; exact eval_op_rem h x y hy hq
  · rw [hr]; exact hb.1
  · rw [hr]; exact hb.2.1
  · rw [hr]; exact hb.2.2
  · intro hbits
    have e1 := eval_small_number h hbits "-7".data (by decide) (by decide) (by decide)
    have e2 := eval_small_number h hbits "2".data (by decide) (by decide) (by decide)
    have v1 : text_value "-7".data = -7 := by decide
    have v2 : text_value "2".data = 2 := by decide
    rw [v1] at e1
    rw [v2] at e2
    have hin : in_range h (Int.tdiv (-7) 2) :=
      in_range_of_small h hbits _ (by decide) (by decide)
    have hd : Int.tdiv (-7) 2 = -3 := by decide
    have hm : Int.tmod (-7) 2 = -1 := by decide
    constructor
    · refine (eval_node_fold h ">".data [] regex_node (operator_node "/".data)
        (number_node "-7".data) regex_node [number_node "2".data] []
        (by decide) (by decide) (by decide)).trans ?_
      simp only [List.map_cons, List.map_nil, List.foldl_cons, List.foldl_nil, e1, e2,
        eval_op_outcomes, operator_node, mpc_ast_t.contents]
      rw [eval_op_div h (-7) 2 (by decide) hin, hd]
    · refine (eval_node_fold h ">".data [] regex_node (operator_node "%".data)
        (number_node "-7".data) regex_node [number_node "2".data] []
        (by decide) (by decide) (by decide)).trans ?_
      simp only [List.map_cons, List.map_nil, List.foldl_cons, List.foldl_nil, e1, e2,
        eval_op_outcomes, operator_node, mpc_ast_t.contents]
      rw [eval_op_rem h (-7) 2 (by decide) hin, hm]

/-- Witness of C9 on an LP64 host: `-7` by `2`. -/
theorem div_rem_truncate_witness :
    (2 : Int) ≠ 0 ∧ in_range host64 (Int.tdiv (-7) 2)
      ∧ eval_op host64 (lval_num (-7)) "/".data (lval_num 2) = .ok (lval_num (Int.tdiv (-7) 2))
      ∧ Int.tdiv (-7) 2 = -3
      ∧ eval host64 prog_rem_neg7_2 = .ok (lval_num (-1)) :=
  have w := div_rem_truncate host64 (-7) 2 (by decide) (by decide)
  ⟨by decide, by decide, w.1, by decide, (w.2.2.2.2.2.2 (by decide)).2⟩

/-- C10: for numbers `x` and `y` on a host whose `long` has at least one bit, `eval_op` with
`+`, `-` and `*` returns the number that is the sum, the difference and the product reduced
to the width of `long`: the returned number is representable, differs from the exact result
by a multiple of `2 ^ long_bits`, and is the exact result when that is representable. -/
theorem add_sub_mul_wrap (h : Host) (hb : 0 < h.long_bits) (x y : Int) :
    (eval_op h (lval_num x) "+".data (lval_num y) = .ok (lval_num (wrap_long h (x + y)))
      ∧ eval_op h (lval_num x) "-".data (lval_num y) = .ok (lval_num (wrap_long h (x - y)))
      ∧ eval_op h (lval_num x) "*".data (lval_num y) = .ok (lval_num (wrap_long h (x * y))))
      ∧ ∀ z : Int, in_range h (wrap_long h z)
          ∧ (2 : Int) ^ h.long_bits ∣ wrap_long h z - z
          ∧ (in_range h z → wrap_long h z = z) := by
  refine ⟨⟨?_, ?_, ?_⟩, fun z => ⟨in_range_wrap_long h hb z, wrap_long_congr h z,
    wrap_long_eq_self h hb z⟩⟩
  · simp [eval_op]
  · simp [eval_op]
  · simp [eval_op]

/-- Witness of C10 on an LP64 host: `LONG_MAX + 1` wraps to `LONG_MIN`. -/
theorem add_sub_mul_wrap_witness :
    0 < host64.long_bits
      ∧ eval_op host64 (lval_num 9223372036854775807) "+".data (lval_num 1)
          = .ok (lval_num (wrap_long host64 (9223372036854775807 + 1)))
      ∧ wrap_long host64 (9223372036854775807 + 1) = -9223372036854775808 :=
  ⟨by decide, (add_sub_mul_wrap host64 (by decide) 9223372036854775807 1).1.1, by decide⟩

/-- C11: for numbers `x` and `y` and every operator text that is none of `+`, `-`, `*`, `/`,
`%`, `^`, `min`, `max` as a whole string, `eval_op` returns the error `LERR_BAD_OP`. -/
theorem unknown_operator_is_error (h : Host) (a b : Int) (op : List Char)
    (hop : op ∉ operator_tokens) :
    eval_op h (lval_num a) op (lval_num b) = .ok (lval_err .LERR_BAD_OP) := by
  simp only [operator_tokens, List.mem_cons, List.mem_singleton, List.not_mem_nil, or_false,
    not_or] at hop
  obtain ⟨o1, o2, o3, o4, o5, o6, o7, o8⟩ := hop
  simp [eval_op, o1, o2, o3, o4, o5, o6, o7, o8]

/-- Witness of C11: the text `++`, which begins with an operator but is none. -/
theorem unknown_operator_is_error_witness :
    "++".data ∉ operator_tokens
      ∧ eval_op host64 (lval_num 1) "++".data (lval_num 2) = .ok (lval_err .LERR_BAD_OP) :=
  ⟨by decide, unknown_operator_is_error host64 1 2 "++".data (by decide)⟩

/-- C12: for every tree of a successful parse `eval` never returns the error `LERR_BAD_OP`;
every token of the grammar's `operator` rule is one `eval_op` handles: on two numbers it
returns a number, the error `LERR_DIV_ZERO`, or stops at a native division, never
`LERR_BAD_OP`. -/
theorem parsed_tree_never_bad_op (h : Host) (t : mpc_ast_t) (ht : parsed_program t) :
    eval h t ≠ .ok (lval_err .LERR_BAD_OP)
      ∧ ∀ op ∈ operator_tokens, ∀ a b : Int,
          eval_op h (lval_num a) op (lval_num b) ≠ .ok (lval_err .LERR_BAD_OP) := by
  constructor
  · exact eval_parsed_program_invariant h (fun o => o ≠ .ok (lval_err .LERR_BAD_OP))
      (eval_number_node_not_bad_op h)
      (fun op hop x y hx hy => eval_op_outcomes_not_bad_op h op hop x y hx hy) t ht
  · intro op hop a b
    rcases eval_op_token_cases h a b op hop with ⟨n, hn⟩ | hn | hn <;> rw [hn] <;> simp

/-- Witness of C12 on an LP64 host: the tree the parser gives for `+ 1 (* 2 3)`. -/
theorem parsed_tree_never_bad_op_witness :
    mpc_parse "+ 1 (* 2 3)".data = some prog_add_1_mul_2_3
      ∧ parsed_program prog_add_1_mul_2_3
      ∧ eval host64 prog_add_1_mul_2_3 ≠ .ok (lval_err .LERR_BAD_OP) :=
  have hp : mpc_parse "+ 1 (* 2 3)".data = some prog_add_1_mul_2_3 := rfl
  have ht : parsed_program prog_add_1_mul_2_3 := parse_program_sound _ _ _ hp
  ⟨hp, ht, (parsed_tree_never_bad_op host64 prog_add_1_mul_2_3 ht).1⟩

/-- C13, as amended: the line `+ 1` is accepted, one operand being enough for `expr+`: its
tree is a program with the operator `+` and the operand `1`, `eval` is called on it, and on
every host whose `long` has at least 32 bits the turn prints `1`, whatever depth beyond the
length of the line the parser is allowed.  A line that is an operator
with no operand at all is a parse failure, whatever depth the parser is allowed, and `eval`
is not called on it. -/
theorem single_operand_line_is_accepted (h : Host) (hb : 32 ≤ h.long_bits) :
    mpc_parse "+ 1".data = some (program_node "+".data [number_node "1".data])
      ∧ (∀ fuel, 4 ≤ fuel →
          parse_program fuel "+ 1".data = some (program_node "+".data [number_node "1".data]))
      ∧ main_turn h "+ 1".data = .printed "1\n".data
      ∧ (∀ op ∈ operator_tokens, ∀ fuel, parse_program fuel op = none)
      ∧ main_turn h "+".data = .parse_failure := by
  have hp : mpc_parse "+ 1".data = some (program_node "+".data [number_node "1".data]) := rfl
  have hq : mpc_parse "+".data = none := rfl
  have e1 := eval_small_number h hb "1".data (by decide) (by decide) (by decide)
  have v1 : text_value "1".data = 1 := by decide
  rw [v1] at e1
  have hev : eval h (program_node "+".data [number_node "1".data]) = .ok (lval_num 1) := by
    have hone := eval_node_fold h ">".data [] regex_node (operator_node "+".data)
      (number_node "1".data) regex_node [] [] (by decide) (by simp) (by decide)
    exact (by simpa using hone : _ = eval h (number_node "1".data)).trans e1
  refine ⟨hp, ?_, ?_, ?_, ?_⟩
  · intro fuel hfuel
    rw [parse_program_fuel "+ 1".data fuel hfuel, hp]
  · have hpr : lval_println (lval_num 1) = "1\n".data := by decide
    simp only [main_turn, hp, hev, hpr]
  · intro op hop fuel
    simp only [operator_tokens, List.mem_cons, List.mem_singleton, List.not_mem_nil,
      or_false] at hop
    rcases hop with rfl | rfl | rfl | rfl | rfl | rfl | rfl | rfl <;>
      rcases fuel with _ | _ | n <;> rfl
  · simp only [main_turn, hq]

/-- Counterexample to C13 as stated, on an LP64 host: the line `+ 1` is not a parse failure;
the parser returns a tree and the turn evaluates it and prints `1`. -/
theorem single_operand_line_parses :
    mpc_parse "+ 1".data ≠ none
      ∧ mpc_parse "+ 1".data = some (program_node "+".data [number_node "1".data])
      ∧ main_turn host64 "+ 1".data = .printed "1\n".data
      ∧ main_turn host64 "+ 1".data ≠ .parse_failure := by
  have hp : mpc_parse "+ 1".data = some (program_node "+".data [number_node "1".data]) := rfl
  refine ⟨?_, hp, by decide, by decide⟩
  intro hn
  rw [hp] at hn
  cases hn

/-- Witness of C13 on an LP64 host. -/
theorem single_operand_line_is_accepted_witness :
    32 ≤ host64.long_bits
      ∧ main_turn host64 "+ 1".data = .printed "1\n".data
      ∧ main_turn host64 "+".data = .parse_failure :=
  have w := single_operand_line_is_accepted host64 (by decide)
  ⟨by decide, w.2.2.1, w.2.2.2.2⟩

/-- C14: the empty line is rejected; every line in which the number of `(` differs from the
number of `)` is rejected; and every line on which the form `operator expr+`, taken as far
as it goes, leaves characters is rejected.  Rejected means that the parser returns no tree,
whatever depth it is allowed, and that the turn of `main` takes the error branch without
calling `eval`; so it is for `(+ 1 2` and for `+ 1 2 )`. -/
theorem malformed_line_is_rejected (h : Host) (fuel : Nat) (s : List Char) :
    (parse_program fuel [] = none ∧ main_turn h [] = .parse_failure)
      ∧ (s.count '(' ≠ s.count ')' →
          parse_program fuel s = none ∧ main_turn h s = .parse_failure)
      ∧ (∀ t c rest, parse_form fuel s = some (t, c :: rest) → parse_program fuel s = none)
      ∧ (∀ t c rest, parse_form (2 * s.length + 2) s = some (t, c :: rest) →
          main_turn h s = .parse_failure)
      ∧ main_turn h "(+ 1 2".data = .parse_failure
      ∧ main_turn h "+ 1 2 )".data = .parse_failure := by
  have hnone : ∀ (f : Nat) (x : List Char), x.count '(' ≠ x.count ')' →
      parse_program f x = none := by
    intro f x hx
    cases hp : parse_program f x with
    | none => rfl
    | some t => exact absurd (parse_program_balanced f x t hp) hx
  have hleft : ∀ (f : Nat) (x : List Char) t c rest,
      parse_form f x = some (t, c :: rest) → parse_program f x = none := by
    intro f x t c rest hf
    simp only [parse_program, hf]
  have hturn : ∀ x : List Char, mpc_parse x = none → main_turn h x = .parse_failure := by
    intro x hx
    simp only [main_turn, hx]
  refine ⟨⟨?_, hturn [] rfl⟩, ?_, ?_, ?_, hturn _ rfl, hturn _ rfl⟩
  · rcases fuel with _ | n <;> rfl
  · intro hs
    exact ⟨hnone fuel s hs, hturn s (hnone _ s hs)⟩
  · intro t c rest hf
    exact hleft fuel s t c rest hf
  · intro t c rest hf
    exact hturn s (hleft _ s t c rest hf)

/-- Witness of C14 on an LP64 host: the line `(+ 1 2`, with one `(` and no `)`, and the line
`+ 1 2 )`, whose form leaves the `)`. -/
theorem malformed_line_is_rejected_witness :
    "(+ 1 2".data.count '(' ≠ "(+ 1 2".data.count ')'
      ∧ main_turn host64 "(+ 1 2".data = .parse_failure
      ∧ parse_form 16 "+ 1 2 )".data
          = some (program_node "+".data [number_node "1".data, number_node "2".data], [')'])
      ∧ parse_program 16 "+ 1 2 )".data = none :=
  ⟨by decide,
    ((malformed_line_is_rejected host64 14 "(+ 1 2".data).2.1 (by decide)).2,
    rfl,
    (malformed_line_is_rejected host64 16 "+ 1 2 )".data).2.2.1 _ _ _ rfl⟩

/-- C15: `lval_print` writes for a number `n` the text of `printf("%li", n)`, which is
matched by `-?[0-9]+` and denotes `n`, and for the errors `LERR_DIV_ZERO`, `LERR_BAD_OP`,
`LERR_BAD_NUM` exactly `Error: Division by zero!`, `Error: Invalid operator!`,
`Error: Invalid number!`; no error text is a decimal integer, and two values with the same
text are the same value, so the three error texts are distinct from each other and from the
text of every number. -/
theorem lval_print_rendering :
    (∀ n : Int, lval_print (lval_num n) = printf_li n
        ∧ is_numeral (lval_print (lval_num n)) = true
        ∧ text_value (lval_print (lval_num n)) = n)
      ∧ lval_print (lval_err .LERR_DIV_ZERO) = "Error: Division by zero!".data
      ∧ lval_print (lval_err .LERR_BAD_OP) = "Error: Invalid operator!".data
      ∧ lval_print (lval_err .LERR_BAD_NUM) = "Error: Invalid number!".data
      ∧ (∀ e : LErr, is_numeral (lval_print (lval_err e)) = false)
      ∧ (∀ v w : lval, lval_print v = lval_print w → v = w) := by
  refine ⟨fun n => ⟨rfl, (printf_li_numeral n).1, (printf_li_numeral n).2⟩, by decide,
    by decide, by decide, lval_print_err_not_numeral, ?_⟩
  intro v w hvw
  cases v with
  | num a =>
    cases w with
    | num b =>
      have ha := (printf_li_numeral a).2
      have hb := (printf_li_numeral b).2
      have hab : printf_li a = printf_li b := hvw
      rw [hab, hb] at ha
      rw [ha]
    | err e =>
      have h1 := (printf_li_numeral a).1
      have h2 := lval_print_err_not_numeral e
      have hab : printf_li a = lval_print (lval_err e) := hvw
      rw [hab, h2] at h1
      cases h1
  | err e =>
    cases w with
    | num b =>
      have h1 := (printf_li_numeral b).1
      have h2 := lval_print_err_not_numeral e
      have hab : lval_print (lval_err e) = printf_li b := hvw
      rw [← hab, h2] at h1
      cases h1
    | err e1 =>
      cases e <;> cases e1 <;> first | rfl | (exfalso; revert hvw; decide)

/-- C16: for numbers `x` and `y`, `eval_op` returns the error `LERR_DIV_ZERO` exactly when
the operator is `/` and `y` is zero; with `%` and a zero `y` it returns no error: it reaches
the native remainder, which has no result for a zero divisor, and the evaluation stops
there. -/
theorem div_zero_only_for_slash (h : Host) (a b : Int) (op : List Char) :
    (eval_op h (lval_num a) op (lval_num b) = .ok (lval_err .LERR_DIV_ZERO)
        ↔ op = "/".data ∧ b = 0)
      ∧ eval_op h (lval_num a) "%".data (lval_num 0) = .fault .arith
      ∧ long_rem h a 0 = none := by
  refine ⟨?_, by simp [eval_op, long_rem], by simp [long_rem]⟩
  by_cases o1 : op = "+".data
  · subst o1; simp [eval_op]
  by_cases o2 : op = "-".data
  · subst o2; simp [eval_op]
  by_cases o3 : op = "*".data
  · subst o3; simp [eval_op]
  by_cases o4 : op = "/".data
  · subst o4
    by_cases hz : b = 0
    · simp [eval_op, hz]
    · cases hq : long_div h a b <;> simp [eval_op, hz, hq]
  by_cases o5 : op = "%".data
  · subst o5
    cases hq : long_rem h a b <;> simp [eval_op, hq]
  by_cases o6 : op = "^".data
  · subst o6; simp [eval_op]
  by_cases o7 : op = "min".data
  · subst o7; simp [eval_op]
  by_cases o8 : op = "max".data
  · subst o8; simp [eval_op]
  simp [eval_op, o1, o2, o3, o4, o5, o6, o7, o8]

/-- C17: for numbers, `eval_op` with `min` returns the lesser and with `max` the greater of
the two; and for a node whose operator text is `min` (or `max`) and whose operands all
evaluate to numbers, `eval` returns a number that is the value of one of the operands and is
not above (not below) the value of any operand, so that a node with the same operands in
another order evaluates to the same number. -/
theorem min_max_of_operands (h : Host) (tag contents : List Char)
    (c0 c1 e1 cl : mpc_ast_t) (rest tail : List mpc_ast_t)
    (htag : strstr tag "number".data = false)
    (hops : ∀ e ∈ e1 :: rest, strstr e.tag "expr".data = true)
    (hcl : strstr cl.tag "expr".data = false)
    (hnum : ∀ e ∈ e1 :: rest, ∃ v, eval h e = .ok (lval_num v)) :
    (∀ a b : Int,
        eval_op h (lval_num a) "min".data (lval_num b) = .ok (lval_num (min a b))
          ∧ eval_op h (lval_num a) "max".data (lval_num b) = .ok (lval_num (max a b)))
      ∧ (c1.contents = "min".data →
          ∃ m, eval h (.mk tag contents (c0 :: c1 :: e1 :: (rest ++ cl :: tail)))
              = .ok (lval_num m)
            ∧ (∃ e ∈ e1 :: rest, eval h e = .ok (lval_num m))
            ∧ ∀ e ∈ e1 :: rest, ∀ v, eval h e = .ok (lval_num v) → m ≤ v)
      ∧ (c1.contents = "max".data →
          ∃ m, eval h (.mk tag contents (c0 :: c1 :: e1 :: (rest ++ cl :: tail)))
              = .ok (lval_num m)
            ∧ (∃ e ∈ e1 :: rest, eval h e = .ok (lval_num m))
            ∧ ∀ e ∈ e1 :: rest, ∀ v, eval h e = .ok (lval_num v) → v ≤ m)
      ∧ (c1.contents = "min".data ∨ c1.contents = "max".data →
          ∀ (e2 : mpc_ast_t) (rest2 : List mpc_ast_t), (e2 :: rest2).Perm (e1 :: rest) →
            eval h (.mk tag contents (c0 :: c1 :: e2 :: (rest2 ++ cl :: tail)))
              = eval h (.mk tag contents (c0 :: c1 :: e1 :: (rest ++ cl :: tail)))) := by
  have hmin : c1.contents = "min".data →
      ∀ a b, eval_op h (lval_num a) c1.contents (lval_num b) = .ok (lval_num (min a b)) :=
    fun hc a b => by rw [hc]; exact (eval_op_min_max h a b).1
  have hmax : c1.contents = "max".data →
      ∀ a b, eval_op h (lval_num a) c1.contents (lval_num b) = .ok (lval_num (max a b)) :=
    fun hc a b => by rw [hc]; exact (eval_op_min_max h a b).2
  refine ⟨eval_op_min_max h, ?_, ?_, ?_⟩
  · intro hc
    exact select_node h min (fun m v => m ≤ v) foldl_min_spec tag contents c0 c1 e1 cl rest
      tail (hmin hc) htag hops hcl hnum
  · intro hc
    exact select_node h max (fun m v => v ≤ m) foldl_max_spec tag contents c0 c1 e1 cl rest
      tail (hmax hc) htag hops hcl hnum
  · intro hc e2 rest2 hperm
    have hops2 : ∀ e ∈ e2 :: rest2, strstr e.tag "expr".data = true :=
      fun e he => hops e (hperm.mem_iff.mp he)
    have hnum2 : ∀ e ∈ e2 :: rest2, ∃ v, eval h e = .ok (lval_num v) :=
      fun e he => hnum e (hperm.mem_iff.mp he)
    rcases hc with hc | hc
    · obtain ⟨m, hm, ⟨em, hem, hemv⟩, hle⟩ := select_node h min (fun m v => m ≤ v)
        foldl_min_spec tag contents c0 c1 e1 cl rest tail (hmin hc) htag hops hcl hnum
      obtain ⟨m2, hm2, ⟨em2, hem2, hemv2⟩, hle2⟩ := select_node h min (fun m v => m ≤ v)
        foldl_min_spec tag contents c0 c1 e2 cl rest2 tail (hmin hc) htag hops2 hcl hnum2
      have k1 : m ≤ m2 := hle em2 (hperm.mem_iff.mp hem2) m2 hemv2
      have k2 : m2 ≤ m := hle2 em (hperm.mem_iff.mpr hem) m hemv
      rw [hm, hm2, le_antisymm k2 k1]
    · obtain ⟨m, hm, ⟨em, hem, hemv⟩, hle⟩ := select_node h max (fun m v => v ≤ m)
        foldl_max_spec tag contents c0 c1 e1 cl rest tail (hmax hc) htag hops hcl hnum
      obtain ⟨m2, hm2, ⟨em2, hem2, hemv2⟩, hle2⟩ := select_node h max (fun m v => v ≤ m)
        foldl_max_spec tag contents c0 c1 e2 cl rest2 tail (hmax hc) htag hops2 hcl hnum2
      have k1 : m2 ≤ m := hle em2 (hperm.mem_iff.mp hem2) m2 hemv2
      have k2 : m ≤ m2 := hle2 em (hperm.mem_iff.mpr hem) m hemv
      rw [hm, hm2, le_antisymm k1 k2]

/-- Witness of C17 on an LP64 host: `min 3 1 2` and `min 2 3 1` evaluate to the same
number. -/
theorem min_max_of_operands_witness :
    eval host64 prog_min_3_1_2 = .ok (lval_num 1)
      ∧ eval host64 prog_min_2_3_1 = eval host64 prog_min_3_1_2 :=
  have w := min_max_of_operands host64 ">".data [] regex_node (operator_node "min".data)
    (number_node "3".data) regex_node [number_node "1".data, number_node "2".data] []
    (by decide) (by decide) (by decide)
    (by
      intro e he
      rcases List.mem_cons.mp he with rfl | he
      · exact ⟨3, by decide⟩
      · rcases List.mem_cons.mp he with rfl | he
        · exact ⟨1, by decide⟩
        · rcases List.mem_cons.mp he with rfl | he
          · exact ⟨2, by decide⟩
          · simp at he)
  have hperm : ([number_node "2".data] ++ [number_node "3".data, number_node "1".data]).Perm
      ([number_node "3".data, number_node "1".data] ++ [number_node "2".data]) :=
    List.perm_append_comm
  ⟨by decide,
    w.2.2.2 (Or.inl rfl) (number_node "2".data) [number_node "3".data, number_node "1".data]
      hperm⟩

/-- C19: for every tree of a successful parse and every sub-expression of it, the evaluation
reads no child out of bounds; the node is tagged `number` exactly when it is the leaf of the
`number` rule; and a node that is not has an opening child, the operator, a first operand,
further operands all tagged `expr`, and a last child not tagged `expr`, at which the loop of
`eval` stops. -/
theorem parsed_tree_reads_in_bounds (h : Host) (t s : mpc_ast_t) (ht : parsed_program t)
    (hs : sub_expression t s) :
    eval h s ≠ .fault .out_of_bounds
      ∧ (strstr s.tag "number".data = true ↔
          ∃ text, is_numeral text = true ∧ s = number_node text)
      ∧ (strstr s.tag "number".data = false →
          ∃ (tag contents : List Char) (c0 c1 e cl : mpc_ast_t) (es : List mpc_ast_t),
            s = .mk tag contents (c0 :: c1 :: e :: (es ++ [cl]))
              ∧ (∀ x ∈ es, strstr x.tag "expr".data = true)
              ∧ strstr cl.tag "expr".data = false) := by
  have hleaf := eval_number_node_in_bounds h
  have hstep : ∀ op ∈ operator_tokens, ∀ x y, x ≠ Outcome.fault Fault.out_of_bounds →
      y ≠ Outcome.fault Fault.out_of_bounds →
      eval_op_outcomes h op x y ≠ Outcome.fault Fault.out_of_bounds :=
    fun op hop x y hx hy => eval_op_outcomes_in_bounds h op hop x y hx hy
  rcases sub_expression_parsed t s hs (Or.inl ht) with hp | hp
  · refine ⟨eval_parsed_program_invariant h (fun o => o ≠ .fault .out_of_bounds) hleaf hstep
      s hp, ?_, ?_⟩
    · cases hp with
      | mk op e es hop he hes =>
        constructor
        · intro hn
          have : strstr ">".data "number".data = false := by decide
          rw [show (program_node op (e :: es)).tag = ">".data from rfl, this] at hn
          cases hn
        · rintro ⟨text, _, heq⟩
          simp [program_node, number_node] at heq
    · intro _
      cases hp with
      | mk op e es hop he hes =>
        exact ⟨">".data, [], regex_node, operator_node op, e, regex_node, es, rfl,
          fun x hx => parsed_expr_tag x (hes x hx), by decide⟩
  · refine ⟨eval_parsed_expr_invariant h (fun o => o ≠ .fault .out_of_bounds) hleaf hstep
      s hp, ?_, ?_⟩
    · cases hp with
      | number text hnum =>
        constructor
        · intro _
          exact ⟨text, hnum, rfl⟩
        · intro _
          show strstr "expr|number|regex".data "number".data = true
          decide
      | paren op e es hop he hes =>
        constructor
        · intro hn
          have : strstr "expr|>".data "number".data = false := by decide
          rw [show (expr_node op (e :: es)).tag = "expr|>".data from rfl, this] at hn
          cases hn
        · rintro ⟨text, _, heq⟩
          simp [expr_node, number_node] at heq
    · intro hn
      cases hp with
      | number text hnum =>
        have : strstr "expr|number|regex".data "number".data = true := by decide
        rw [show (number_node text).tag = "expr|number|regex".data from rfl, this] at hn
        cases hn
      | paren op e es hop he hes =>
        exact ⟨"expr|>".data, [], char_node "(".data, operator_node op, e,
          char_node ")".data, es, rfl, fun x hx => parsed_expr_tag x (hes x hx), by decide⟩

/-- Witness of C19 on an LP64 host: the tree the parser gives for `+ 1 (* 2 3)`. -/
theorem parsed_tree_reads_in_bounds_witness :
    parsed_program prog_add_1_mul_2_3
      ∧ sub_expression prog_add_1_mul_2_3 prog_add_1_mul_2_3
      ∧ eval host64 prog_add_1_mul_2_3 ≠ .fault .out_of_bounds :=
  have hp : mpc_parse "+ 1 (* 2 3)".data = some prog_add_1_mul_2_3 := rfl
  have ht : parsed_program prog_add_1_mul_2_3 := parse_program_sound _ _ _ hp
  ⟨ht, sub_expression.refl _,
    (parsed_tree_reads_in_bounds host64 prog_add_1_mul_2_3 prog_add_1_mul_2_3 ht
      (sub_expression.refl _)).1⟩

/-- C20: for every operator text, a node with exactly one operand `e` (the child after it is
not tagged `expr`) evaluates to the outcome of `e` unchanged, and its evaluation performs the
events of `e` and no call of `eval_op`; on every host whose `long` has at least 32 bits
`- 5` evaluates to `5`, `/ 0` to `0`, and a program shape with the operator text `foo` and
the operand `5` to `5`, not to `LERR_BAD_OP`. -/
theorem single_operand_is_returned (h : Host) (tag contents : List Char)
    (c0 c1 e cl : mpc_ast_t) (tail : List mpc_ast_t)
    (htag : strstr tag "number".data = false)
    (hcl : strstr cl.tag "expr".data = false) :
    eval h (.mk tag contents (c0 :: c1 :: e :: cl :: tail)) = eval h e
      ∧ trace h (.mk tag contents (c0 :: c1 :: e :: cl :: tail)) = trace h e
      ∧ (32 ≤ h.long_bits →
          eval h prog_sub_5 = .ok (lval_num 5)
            ∧ eval h prog_div_0 = .ok (lval_num 0)
            ∧ eval h prog_foo_5 = .ok (lval_num 5)) := by
  have key : ∀ (tag1 contents1 : List Char) (d0 d1 d dl : mpc_ast_t) (tl : List mpc_ast_t),
      strstr tag1 "number".data = false → strstr dl.tag "expr".data = false →
      eval h (.mk tag1 contents1 (d0 :: d1 :: d :: dl :: tl)) = eval h d := by
    intro tag1 contents1 d0 d1 d dl tl h1 h2
    have hone := eval_node_fold h tag1 contents1 d0 d1 d dl [] tl h1 (by simp) h2
    simpa using hone
  refine ⟨key tag contents c0 c1 e cl tail htag hcl, ?_, ?_⟩
  · simp only [trace, htag, Bool.false_eq_true, if_false]
    cases eval h e with
    | fault f => simp
    | ok x => simp [trace_loop, hcl]
  · intro hb
    have e5 := eval_small_number h hb "5".data (by decide) (by decide) (by decide)
    have e0 := eval_small_number h hb "0".data (by decide) (by decide) (by decide)
    have v5 : text_value "5".data = 5 := by decide
    have v0 : text_value "0".data = 0 := by decide
    rw [v5] at e5
    rw [v0] at e0
    refine ⟨?_, ?_, ?_⟩
    · exact (key ">".data [] regex_node (operator_node "-".data) (number_node "5".data)
        regex_node [] (by decide) (by decide)).trans e5
    · exact (key ">".data [] regex_node (operator_node "/".data) (number_node "0".data)
        regex_node [] (by decide) (by decide)).trans e0
    · exact (key ">".data [] regex_node (operator_node "foo".data) (number_node "5".data)
        regex_node [] (by decide) (by decide)).trans e5

/-- Witness of C20 on an LP64 host: the tree of `- 5`. -/
theorem single_operand_is_returned_witness :
    eval host64 prog_sub_5 = eval host64 (number_node "5".data)
      ∧ trace host64 prog_sub_5 = [Event.number "5".data]
      ∧ eval host64 prog_sub_5 = .ok (lval_num 5) :=
  have w := single_operand_is_returned host64 ">".data [] regex_node (operator_node "-".data)
    (number_node "5".data) regex_node [] (by decide) (by decide)
  ⟨w.1, w.2.1.trans (by decide), (w.2.2 (by decide)).1⟩

end VinLisp
